import Mathlib

/-!
# Verification of the Campus Network Optimizer MST engine

A shallow embedding of `src/DAAproject.py` (class `CampusNetwork` with
`add_building`, `add_connection`, `kruskal_mst`, `prim_mst`, and the nested
union-find `find`/`union` of `kruskal_mst`), together with proofs of the
specification's claims about it.

Modelling conventions:
* Python `float` weights and coordinates are modelled exactly, as integers
  (`Int`); the sample data and the algorithmic content use weights only through
  comparison and addition, which the embedding mirrors exactly.
* The `networkx.Graph` held by a `CampusNetwork` is modelled by its node list
  (insertion order), its edge list (stored orientation and insertion order,
  at most one edge per unordered pair, as `nx.Graph.add_edge` maintains), and
  the `buildings` dict as an association list.
* `nx.Graph.edges(data=True)` enumerates each edge once, grouped by the first
  endpoint in node-insertion order; `nxEdges` reproduces that enumeration.
* Python's `sorted` is a stable sort by the weight key; a stable sort's output
  is determined by the key, so `List.insertionSort` (also stable) produces the
  same list.
* Python dict lookups that would raise `KeyError` are modelled with a default
  value (`getD`); every lookup the algorithms perform is shown to be on a
  present key for well-formed states (claim C10).
* The recursive `find` is modelled with an explicit fuel argument; the proofs
  show that the fuel supplied by the algorithms always suffices, so the model
  agrees with the (terminating) Python recursion.
* The `heapq` priority queue is modelled as a multiset (list) from which each
  pop removes the least entry in the lexicographic tuple order Python uses;
  since all live entries are distinct, this is exactly the heap's behaviour.
-/

/-- Edge record: endpoints in stored orientation plus weight
(`graph.add_edge(u, v, weight=w)`). -/
structure CEdge where
  u : String
  v : String
  w : Int
deriving DecidableEq, Repr

/-- Building coordinates `(x, y)`. -/
abbrev Pos := Int × Int

/-- The `nx.Graph` returned by either MST routine: its nodes (with `pos`
attributes) and its edges, both in insertion order. -/
structure MSTResult where
  rnodes : List (String × Pos) := []
  redges : List CEdge := []
deriving DecidableEq, Repr

/-- Total weight of a result: the sum of its selected edges' weights (the
value `total_cost` accumulates in the Python code). -/
def MSTResult.total (r : MSTResult) : Int :=
  (r.redges.map (fun e => e.w)).sum

/-- State of a `CampusNetwork` object: the `networkx` graph (nodes + edges),
the `buildings` dict, and the `mst` field. -/
structure CampusNetwork where
  nodes : List String := []
  edges : List CEdge := []
  buildings : List (String × Pos) := []
  mst : Option MSTResult := none
deriving DecidableEq, Repr

/-- `CampusNetwork()`. -/
def CampusNetwork.init : CampusNetwork := {}

/-- Dict write `d[k] = v`: overwrite in place if the key is present,
otherwise append. -/
def setA : List (String × Pos) → String → Pos → List (String × Pos)
  | [], k, v => [(k, v)]
  | (k', v') :: rest, k, v =>
    if k' = k then (k, v) :: rest else (k', v') :: setA rest k v

/-- `nx.Graph.add_node`: append if absent (re-adding only updates attributes). -/
def addNodeL (ns : List String) (n : String) : List String :=
  if n ∈ ns then ns else ns ++ [n]

/-- `nx.Graph.add_edge u v weight=w` on the stored edge list: if an edge
with the same unordered endpoint pair exists, update its weight in place
(keeping position and stored orientation); otherwise append. -/
def updateEdge : List CEdge → String → String → Int → List CEdge
  | [], u, v, w => [⟨u, v, w⟩]
  | e :: rest, u, v, w =>
    if (e.u = u ∧ e.v = v) ∨ (e.u = v ∧ e.v = u) then ⟨e.u, e.v, w⟩ :: rest
    else e :: updateEdge rest u v w

/-- `add_building(self, name, x, y)`. -/
def CampusNetwork.add_building (g : CampusNetwork) (name : String) (x y : Int) :
    CampusNetwork :=
  { g with
    buildings := setA g.buildings name (x, y)
    nodes := addNodeL g.nodes name }

/-- Keys of the `buildings` dict. -/
def bkeys (g : CampusNetwork) : List String := g.buildings.map Prod.fst

/-- `add_connection(self, building1, building2, cost)`: a guard check, then
`add_edge` (which also registers missing endpoints as graph nodes). No error
is raised on unknown endpoints (the edge is silently skipped) and the weight
is not validated. -/
def CampusNetwork.add_connection (g : CampusNetwork) (b1 b2 : String) (cost : Int) :
    CampusNetwork :=
  if b1 ∈ bkeys g ∧ b2 ∈ bkeys g then
    { g with
      nodes := addNodeL (addNodeL g.nodes b1) b2
      edges := updateEdge g.edges b1 b2 cost }
  else g

/-- `self.buildings[node]`, with a default standing in for the (unreachable,
see claim C10) `KeyError` case. -/
def bpos (g : CampusNetwork) (n : String) : Pos :=
  (g.buildings.lookup n).getD (0, 0)

/-- Neighbours of `n` with edge weights, in adjacency insertion order
(`self.graph[n].items()`). -/
def nbrsOf (es : List CEdge) (n : String) : List (String × Int) :=
  es.filterMap fun e =>
    if e.u = n then some (e.v, e.w)
    else if e.v = n then some (e.u, e.w)
    else none

/-- `nx.Graph.edges(data=True)`: iterate nodes in insertion order keeping a
`seen` set; at node `n`, report `(n, nbr, data)` for each neighbour not seen
before `n`. -/
def nxEdgesAux (es : List CEdge) : List String → List String → List CEdge
  | [], _ => []
  | n :: rest, seen =>
    (((nbrsOf es n).filter fun p => p.1 ∉ seen).map fun p => ⟨n, p.1, p.2⟩)
      ++ nxEdgesAux es rest (n :: seen)

/-- The list `self.graph.edges(data=True)`. -/
def nxEdges (g : CampusNetwork) : List CEdge :=
  nxEdgesAux g.edges g.nodes []

/-- Weight comparison used as the sort key (`key=lambda x: x[2]['weight']`). -/
def wleR (a b : CEdge) : Prop := a.w ≤ b.w

instance : DecidableRel wleR := fun a b => inferInstanceAs (Decidable (a.w ≤ b.w))

instance : IsTotal CEdge wleR := ⟨fun a b => Int.le_total a.w b.w⟩

instance : IsTrans CEdge wleR := ⟨fun _ _ _ h h' => le_trans h h'⟩

/-- The nested `find(node)` of `kruskal_mst`, with explicit fuel for the
recursion: follow parent pointers to the root, rewriting each visited node's
parent to the root on the way back (path compression). Returns the root and
the updated parent map. -/
def find : Nat → (String → String) → String → String × (String → String)
  | 0, p, n => (n, p)
  | fuel + 1, p, n =>
    if p n = n then (n, p)
    else
      let res := find fuel p (p n)
      (res.1, fun m => if m = n then res.1 else res.2 m)

/-- The nested `union(node1, node2)` of `kruskal_mst`:
`root1, root2 = find(node1), find(node2); if root1 != root2:
parent[root2] = root1; return True; return False`. -/
def union (fuel : Nat) (p : String → String) (a b : String) :
    Bool × (String → String) :=
  let fa := find fuel p a
  let fb := find fuel fa.2 b
  if fa.1 ≠ fb.1 then
    (true, fun m => if m = fb.1 then fa.1 else fb.2 m)
  else
    (false, fb.2)

/-- The edge loop of `kruskal_mst`: for each edge in sorted order, keep it iff
`union` on its endpoints succeeds, accumulating the total cost. -/
def kruskalFold (fuel : Nat) :
    (String → String) → List CEdge → List CEdge → Int → List CEdge × Int
  | _, [], acc, total => (acc, total)
  | p, e :: rest, acc, total =>
    let r := union fuel p e.u e.v
    if r.1 then kruskalFold fuel r.2 rest (acc ++ [e]) (total + e.w)
    else kruskalFold fuel r.2 rest acc total

/-- `kruskal_mst(self)`: sort the edges by weight (stably), initialise a
union-find with one singleton per graph node, add every graph node to the
result, then scan the sorted edges keeping those whose `union` succeeds.
Stores the result in `self.mst` and returns it. -/
def CampusNetwork.kruskal_mst (g : CampusNetwork) : CampusNetwork × MSTResult :=
  let sortedEdges := (nxEdges g).insertionSort wleR
  let sel := kruskalFold g.nodes.length (fun n => n) sortedEdges [] 0
  let result : MSTResult :=
    { rnodes := g.nodes.map fun n => (n, bpos g n)
      redges := sel.1 }
  ({ g with mst := some result }, result)

/-- A `heapq` entry `(weight, node, previous)`. -/
structure PEntry where
  pw : Int
  pnode : String
  pprev : Option String
deriving DecidableEq, Repr

/-- Python comparison on the `previous` component (`None` sorts below any
string; the Python code never actually compares `None` with a string, see the
invariant that only the initial entry carries `None`). -/
def optStrLt : Option String → Option String → Bool
  | none, none => false
  | none, some _ => true
  | some _, none => false
  | some a, some b => a < b

/-- Python's lexicographic tuple order `(weight, node, previous)` used by
`heapq` (`a ≤ b`). -/
def pleB (a b : PEntry) : Bool :=
  if a.pw < b.pw then true
  else if b.pw < a.pw then false
  else if a.pnode < b.pnode then true
  else if b.pnode < a.pnode then false
  else !(optStrLt b.pprev a.pprev)

/-- The least entry of a nonempty multiset of heap entries. -/
def pqMin (e : PEntry) (rest : List PEntry) : PEntry :=
  rest.foldl (fun m f => if pleB m f then m else f) e

theorem pqMin_mem (e : PEntry) (rest : List PEntry) : pqMin e rest ∈ e :: rest := by
  induction rest generalizing e with
  | nil => simp [pqMin]
  | cons f rest ih =>
    have h := ih (if pleB e f then e else f)
    simp only [pqMin, List.foldl_cons] at h ⊢
    rcases List.mem_cons.1 h with h | h
    · rw [h]
      split <;> simp
    · simp [h]

theorem pleB_true_le {a b : PEntry} (h : pleB a b = true) : a.pw ≤ b.pw := by
  unfold pleB at h
  split at h
  · omega
  · split at h
    · exact absurd h (by simp)
    · omega

theorem pleB_false_le {a b : PEntry} (h : pleB a b = false) : b.pw ≤ a.pw := by
  unfold pleB at h
  split at h
  · exact absurd h (by simp)
  · omega

theorem pqMin_le (e : PEntry) (rest : List PEntry) :
    ∀ f ∈ e :: rest, (pqMin e rest).pw ≤ f.pw := by
  induction rest generalizing e with
  | nil => simp [pqMin]
  | cons f rest ih =>
    intro x hx
    simp only [pqMin, List.foldl_cons]
    have step : (if pleB e f then e else f).pw ≤ e.pw ∧
        (if pleB e f then e else f).pw ≤ f.pw := by
      cases h : pleB e f with
      | true => exact ⟨by simp, by simpa using pleB_true_le h⟩
      | false => exact ⟨by simpa using pleB_false_le h, by simp⟩
    rcases List.mem_cons.1 hx with h | h
    · subst h
      exact le_trans (ih _ _ (List.mem_cons_self _ _)) step.1
    · rcases List.mem_cons.1 h with h | h
      · subst h
        exact le_trans (ih _ _ (List.mem_cons_self _ _)) step.2
      · exact ih _ _ (List.mem_cons.2 (Or.inr h))

theorem erase_length_lt {m : PEntry} {pq : List PEntry} (h : m ∈ pq) :
    (pq.erase m).length < pq.length := by
  rw [List.length_erase_of_mem h]
  have : pq.length ≠ 0 := by
    intro h0
    rw [List.length_eq_zero] at h0
    subst h0
    simp at h
  omega

/-- The `while pq and len(visited) < len(self.graph.nodes())` loop of
`prim_mst`. Pops the least entry; stale entries (node already visited) are
discarded; otherwise the node is committed, its entering edge recorded, and
one candidate entry pushed per unvisited neighbour. -/
def primLoop (g : CampusNetwork) (pq : List PEntry) (visited : List String)
    (accN : List (String × Pos)) (accE : List CEdge) (total : Int) :
    List (String × Pos) × List CEdge × Int :=
  match hpq : pq with
  | [] => (accN, accE, total)
  | e0 :: rest0 =>
    if hv : visited.length < g.nodes.length then
      let m := pqMin e0 rest0
      let pq' := (e0 :: rest0).erase m
      if m.pnode ∈ visited then
        primLoop g pq' visited accN accE total
      else
        let visited' := visited ++ [m.pnode]
        let accN' := accN ++ [(m.pnode, bpos g m.pnode)]
        let pushes := ((nbrsOf g.edges m.pnode).filter
            fun pr => pr.1 ∉ visited').map fun pr => ⟨pr.2, pr.1, some m.pnode⟩
        match m.pprev with
        | none => primLoop g (pq' ++ pushes) visited' accN' accE total
        | some pv =>
          primLoop g (pq' ++ pushes) visited' accN'
            (accE ++ [⟨pv, m.pnode, m.pw⟩]) (total + m.pw)
    else (accN, accE, total)
termination_by (g.nodes.length - visited.length, pq.length)
decreasing_by
  · apply Prod.Lex.right
    exact erase_length_lt (pqMin_mem e0 rest0)
  · apply Prod.Lex.left
    simp only [List.length_append, List.length_cons, List.length_nil]
    omega
  · apply Prod.Lex.left
    simp only [List.length_append, List.length_cons, List.length_nil]
    omega

/-- One-step unfolding of `primLoop`, mirroring its definition. -/
theorem primLoop_eq (g : CampusNetwork) (pq : List PEntry) (visited : List String)
    (accN : List (String × Pos)) (accE : List CEdge) (total : Int) :
    primLoop g pq visited accN accE total =
      match pq with
      | [] => (accN, accE, total)
      | e0 :: rest0 =>
        if visited.length < g.nodes.length then
          let m := pqMin e0 rest0
          let pq' := (e0 :: rest0).erase m
          if m.pnode ∈ visited then
            primLoop g pq' visited accN accE total
          else
            let visited' := visited ++ [m.pnode]
            let accN' := accN ++ [(m.pnode, bpos g m.pnode)]
            let pushes := ((nbrsOf g.edges m.pnode).filter
                fun pr => pr.1 ∉ visited').map fun pr => ⟨pr.2, pr.1, some m.pnode⟩
            match m.pprev with
            | none => primLoop g (pq' ++ pushes) visited' accN' accE total
            | some pv =>
              primLoop g (pq' ++ pushes) visited' accN'
                (accE ++ [⟨pv, m.pnode, m.pw⟩]) (total + m.pw)
        else (accN, accE, total) := by
  rw [primLoop.eq_def]
  rcases pq with _ | ⟨e0, rest0⟩
  · rfl
  · by_cases hv : visited.length < g.nodes.length <;> simp [hv]

/-- `prim_mst(self)`: empty graph short-circuits to an empty result (without
touching `self.mst`); otherwise grow from the first node with a lazy-deletion
priority queue. -/
def CampusNetwork.prim_mst (g : CampusNetwork) : CampusNetwork × MSTResult :=
  match g.nodes with
  | [] => (g, {})
  | start :: _ =>
    let out := primLoop g [⟨0, start, none⟩] [] [] [] 0
    let result : MSTResult := { rnodes := out.1, redges := out.2.1 }
    ({ g with mst := some result }, result)

/-- Union-find replay of a list of edges (the spec's forest check): union the
endpoints of each edge in turn on a fresh union-find and report whether every
union succeeded. -/
def replayOk (es : List CEdge) : Bool :=
  (es.foldl
    (fun (st : Bool × (String → String)) e =>
      let r := union (2 * es.length + 1) st.2 e.u e.v
      (st.1 && r.1, r.2))
    (true, fun n => n)).1

/-- All endpoints mentioned by an edge list. -/
def touchedNodes (es : List CEdge) : List String :=
  es.flatMap fun e => [e.u, e.v]

/-- One breadth-first expansion step of a reachable set: add every node joined
by an edge to a node already in the set. -/
def expandR (es : List CEdge) (S : List String) : List String :=
  S ++ ((es.flatMap fun e => [(e.u, e.v), (e.v, e.u)]).filterMap
    fun pr => if pr.1 ∈ S ∧ pr.2 ∉ S then some pr.2 else none).dedup

/-- Iterated expansion. -/
def reachAux (es : List CEdge) : Nat → List String → List String
  | 0, S => S
  | fuel + 1, S => reachAux es fuel (expandR es S)

/-- Decidable reachability along a list of (undirected) edges. -/
def reachB (es : List CEdge) (a b : String) : Bool :=
  b ∈ reachAux es ((touchedNodes es).dedup.length + 1) [a]

/-- Decidable connectedness of the graph. -/
def connectedB (g : CampusNetwork) : Bool :=
  g.nodes.all fun a => g.nodes.all fun b => reachB g.edges a b

/-- The first node (in insertion order) of `n`'s connected component:
a canonical representative. -/
def crep (g : CampusNetwork) (n : String) : String :=
  (g.nodes.find? fun m => reachB g.edges m n).getD n

/-- The number of connected components of the graph: the number of distinct
canonical representatives among its nodes. -/
def nComponents (g : CampusNetwork) : Nat :=
  (g.nodes.toFinset.image (crep g)).card

/-- Well-formedness of a `CampusNetwork` state: node list duplicate-free,
every edge endpoint a registered node, at most one edge per unordered pair,
`buildings` keys duplicate-free and covering every node. Every state built by
`add_building`/`add_connection` satisfies this (see `applyOps_wf`). -/
def Wf (g : CampusNetwork) : Prop :=
  g.nodes.Nodup ∧
  (∀ e ∈ g.edges, e.u ∈ g.nodes ∧ e.v ∈ g.nodes) ∧
  g.edges.Pairwise (fun e f => ¬ ((e.u = f.u ∧ e.v = f.v) ∨ (e.u = f.v ∧ e.v = f.u))) ∧
  (bkeys g).Nodup ∧
  (∀ n ∈ g.nodes, n ∈ bkeys g)

instance (g : CampusNetwork) : Decidable (Wf g) := by
  unfold Wf
  infer_instance

/-- The construction API: the operations `create_sample_campus` (and any other
caller) performs on a fresh `CampusNetwork`. -/
inductive NetOp where
  | addB (name : String) (x y : Int)
  | addC (b1 b2 : String) (cost : Int)
deriving DecidableEq, Repr

/-- Run a sequence of constructor calls on `CampusNetwork()`. -/
def applyOps (ops : List NetOp) : CampusNetwork :=
  ops.foldl
    (fun g op =>
      match op with
      | .addB name x y => g.add_building name x y
      | .addC b1 b2 c => g.add_connection b1 b2 c)
    CampusNetwork.init

/-- Triangle sample: A-B=1, B-C=2, A-C=3 (spec §8 concrete scenario). -/
def gTri : CampusNetwork :=
  applyOps [.addB "A" 0 0, .addB "B" 1 0, .addB "C" 2 0,
    .addC "A" "B" 1, .addC "B" "C" 2, .addC "A" "C" 3]

/-- Disconnected sample: components {A,B} (A-B=1) and {C,D} (C-D=1)
(spec §8 disconnected input). -/
def gDisc : CampusNetwork :=
  applyOps [.addB "A" 0 0, .addB "B" 1 0, .addB "C" 2 0, .addB "D" 3 0,
    .addC "A" "B" 1, .addC "C" "D" 1]

/-! ## Union-find semantics

`Chain p n r k`: starting from `n`, following parent pointers `k` times
reaches the root `r` (a fixed point of `p`), with every intermediate node a
non-root. This captures exactly the executions of the recursive Python
`find`. -/

inductive Chain (p : String → String) : String → String → Nat → Prop
  | refl (n : String) : p n = n → Chain p n n 0
  | step (n r : String) (k : Nat) : p n ≠ n → Chain p (p n) r k → Chain p n r (k + 1)

/-- `r` is the canonical representative of `n`'s set. -/
def HasRoot (p : String → String) (n r : String) : Prop := ∃ k, Chain p n r k

/-- `a` and `b` lie in the same set of the partition represented by `p`. -/
def sameSet (p : String → String) (a b : String) : Prop :=
  ∃ r, HasRoot p a r ∧ HasRoot p b r

/-- Well-formed parent map over the registered nodes `V`: identity outside
`V`, closed on `V`, and free of cycles (every node reaches a root). -/
def WFP (p : String → String) (V : List String) : Prop :=
  (∀ n, n ∉ V → p n = n) ∧ (∀ n ∈ V, p n ∈ V) ∧ (∀ n, ∃ r, HasRoot p n r)

theorem chain_root_fixed {p : String → String} {n r : String} {k : Nat}
    (h : Chain p n r k) : p r = r := by
  induction h with
  | refl n hn => exact hn
  | step n r k hn hc ih => exact ih

theorem chain_unique {p : String → String} {n r r' : String} {k k' : Nat}
    (h : Chain p n r k) (h' : Chain p n r' k') : r = r' ∧ k = k' := by
  induction h generalizing k' with
  | refl n hn =>
    cases h' with
    | refl => exact ⟨rfl, rfl⟩
    | step _ _ _ hne => exact absurd hn hne
  | step n r k hn hc ih =>
    cases h' with
    | refl _ hfix => exact absurd hfix hn
    | step _ _ k2 _ hc2 =>
      obtain ⟨hr, hk⟩ := ih hc2
      exact ⟨hr, by omega⟩

theorem chain_iterate {p : String → String} {n r : String} {k : Nat}
    (h : Chain p n r k) : ∀ j, j ≤ k → Chain p (p^[j] n) r (k - j) := by
  induction h with
  | refl n hn =>
    intro j hj
    interval_cases j
    exact Chain.refl n hn
  | step n r k hn hc ih =>
    intro j hj
    cases j with
    | zero => simpa using Chain.step n r k hn hc
    | succ j =>
      rw [Function.iterate_succ_apply]
      simpa using ih j (by omega)

theorem chain_iterate_ne {p : String → String} {n r : String} {k : Nat}
    (h : Chain p n r k) : ∀ i j, i < j → j ≤ k → p^[i] n ≠ p^[j] n := by
  intro i j hij hjk heq
  have hi := chain_iterate h i (by omega)
  have hj := chain_iterate h j hjk
  rw [heq] at hi
  obtain ⟨-, hk⟩ := chain_unique hi hj
  omega

theorem chain_last {p : String → String} {n r : String} {k : Nat}
    (h : Chain p n r k) : p^[k] n = r := by
  have h0 := chain_iterate h k (le_refl k)
  simp only [Nat.sub_self] at h0
  generalize hg : p^[k] n = x at h0
  cases h0
  rfl

theorem chain_closed {p : String → String} {V : List String} {n r : String} {k : Nat}
    (hcl : ∀ m ∈ V, p m ∈ V) (hn : n ∈ V) (h : Chain p n r k) :
    ∀ j, j ≤ k → p^[j] n ∈ V := by
  intro j hj
  clear h
  induction j with
  | zero => simpa using hn
  | succ j ih =>
    rw [Function.iterate_succ_apply']
    exact hcl _ (ih (by omega))

theorem chain_bound {p : String → String} {V : List String} {n r : String} {k : Nat}
    (hwf : WFP p V) (hnd : V.Nodup) (h : Chain p n r k) : k ≤ V.length := by
  by_cases hn : n ∈ V
  · set L : List String := (List.range (k + 1)).map (fun j => p^[j] n) with hL
    have hnodup : L.Nodup := by
      rw [hL]
      refine List.Nodup.map_on ?_ (List.nodup_range _)
      intro i hi j hj heq
      simp only [List.mem_range] at hi hj
      by_contra hne
      rcases Nat.lt_or_ge i j with hij | hij
      · exact chain_iterate_ne h i j hij (by omega) heq
      · exact chain_iterate_ne h j i (by omega) (by omega) heq.symm
    have hsub : ∀ x ∈ L, x ∈ V := by
      intro x hx
      rw [hL] at hx
      simp only [List.mem_map, List.mem_range] at hx
      obtain ⟨j, hj, rfl⟩ := hx
      exact chain_closed hwf.2.1 hn h j (by omega)
    have hlen : L.length = k + 1 := by simp [hL]
    have hcard : L.length ≤ V.length := by
      rw [← List.toFinset_card_of_nodup hnodup, ← List.toFinset_card_of_nodup hnd]
      apply Finset.card_le_card
      intro x hx
      rw [List.mem_toFinset] at hx ⊢
      exact hsub x hx
    omega
  · have hfix := hwf.1 n hn
    cases h with
    | refl => omega
    | step _ _ _ hne => exact absurd hfix hne

/-- Full specification of `find`: given enough fuel, it returns the root and
rewrites precisely the visited nodes (the strict chain prefix) to point at
the root. -/
theorem find_spec {p : String → String} {n r : String} {k : Nat}
    (h : Chain p n r k) : ∀ fuel, k ≤ fuel →
    (find fuel p n).1 = r ∧
    (∀ m, (∃ j, j < k ∧ m = p^[j] n) → (find fuel p n).2 m = r) ∧
    (∀ m, (∀ j, j < k → m ≠ p^[j] n) → (find fuel p n).2 m = p m) := by
  induction h with
  | refl n hn =>
    intro fuel _
    have hbase : ∀ m, (∃ j, j < 0 ∧ m = p^[j] n) → False := by
      rintro m ⟨j, hj, -⟩
      omega
    cases fuel with
    | zero => exact ⟨rfl, fun m hm => absurd hm (hbase m), fun m _ => rfl⟩
    | succ fuel =>
      refine ⟨?_, fun m hm => absurd hm (hbase m), fun m _ => ?_⟩ <;> simp [find, hn]
  | step n r k hn hc ih =>
    intro fuel hfuel
    cases fuel with
    | zero => omega
    | succ fuel =>
      have hrec := ih fuel (by omega)
      simp only [find, if_neg hn]
      refine ⟨hrec.1, ?_, ?_⟩
      · intro m hm
        obtain ⟨j, hj, rfl⟩ := hm
        cases j with
        | zero => simp [hrec.1]
        | succ j =>
          have hne : p^[j+1] n ≠ n := by
            intro he
            exact chain_iterate_ne (Chain.step n r k hn hc) 0 (j + 1) (by omega)
              (by omega) (by simpa using he.symm)
          simp only [if_neg hne]
          exact hrec.2.1 _ ⟨j, by omega, by rw [Function.iterate_succ_apply]⟩
      · intro m hm
        have hmn : m ≠ n := by simpa using hm 0 (by omega)
        simp only [if_neg hmn]
        exact hrec.2.2 m fun j hj => by
          have := hm (j + 1) (by omega)
          rwa [Function.iterate_succ_apply] at this

/-- `find` preserves every node's root (path compression only reroutes
pointers inside a set). -/
theorem find_preserves {p : String → String} {n r : String} {k : Nat}
    (h : Chain p n r k) {fuel : Nat} (hfuel : k ≤ fuel) :
    ∀ m r' j, Chain p m r' j → ∃ j', Chain (find fuel p n).2 m r' j' := by
  obtain ⟨h1, h2, h3⟩ := find_spec h fuel hfuel
  have hlast : p^[k] n = r := chain_last h
  have hroot_unvis : ∀ i2, i2 < k → r ≠ p^[i2] n := by
    intro i2 hi2 he
    exact chain_iterate_ne h i2 k hi2 (le_refl k) (by rw [hlast, ← he])
  have hqr : (find fuel p n).2 r = r := by
    rw [h3 r hroot_unvis]
    exact chain_root_fixed h
  intro m r' j hm
  induction hm with
  | refl m hfix =>
    refine ⟨0, Chain.refl m ?_⟩
    have hunvis : ∀ i, i < k → m ≠ p^[i] n := by
      intro i hi he
      have hci : Chain p (p^[i] n) r (k - i) := chain_iterate h i (by omega)
      rw [← he] at hci
      obtain ⟨-, hk0⟩ := chain_unique (Chain.refl m hfix) hci
      omega
    rw [h3 m hunvis]
    exact hfix
  | step m r' j2 hne hc2 ih =>
    by_cases hvis : ∃ i, i < k ∧ m = p^[i] n
    · obtain ⟨i, hik, hmi⟩ := hvis
      have hchain_m : Chain p (p^[i] n) r (k - i) := chain_iterate h i (by omega)
      rw [← hmi] at hchain_m
      obtain ⟨hreq, -⟩ := chain_unique (Chain.step m r' j2 hne hc2) hchain_m
      subst hreq
      have hqm : (find fuel p n).2 m = r' := h2 m ⟨i, hik, hmi⟩
      have hmnr : m ≠ r' := by
        intro he
        exact hroot_unvis i hik (by rw [← he, hmi])
      refine ⟨1, Chain.step m r' 0 (by rw [hqm]; exact fun he => hmnr he.symm) ?_⟩
      rw [hqm]
      exact Chain.refl r' hqr
    · push_neg at hvis
      have hqm : (find fuel p n).2 m = p m := h3 m hvis
      obtain ⟨j', hj'⟩ := ih
      exact ⟨j' + 1, Chain.step m r' j' (by rw [hqm]; exact hne) (by rw [hqm]; exact hj')⟩
theorem chain_of_fixed {p : String → String} {n r : String} {k : Nat}
    (hfix : p n = n) (h : Chain p n r k) : r = n ∧ k = 0 := by
  obtain ⟨hr, hk⟩ := chain_unique (Chain.refl n hfix) h
  exact ⟨hr.symm, hk.symm⟩

theorem hasRoot_unique {p : String → String} {n r r' : String}
    (h : HasRoot p n r) (h' : HasRoot p n r') : r = r' := by
  obtain ⟨k, hk⟩ := h
  obtain ⟨k', hk'⟩ := h'
  exact (chain_unique hk hk').1

/-- `find` keeps the parent map well-formed. -/
theorem find_wfp {p : String → String} {V : List String} {n r : String} {k : Nat}
    (hwf : WFP p V) (h : Chain p n r k) {fuel : Nat} (hfuel : k ≤ fuel) :
    WFP (find fuel p n).2 V := by
  obtain ⟨h1, h2, h3⟩ := find_spec h fuel hfuel
  have hunvis_of_out : ∀ m, m ∉ V → ∀ j, j < k → m ≠ p^[j] n := by
    intro m hm j hj he
    by_cases hn : n ∈ V
    · exact hm (he ▸ chain_closed hwf.2.1 hn h j (by omega))
    · obtain ⟨-, hk0⟩ := chain_of_fixed (hwf.1 n hn) h
      omega
  refine ⟨?_, ?_, ?_⟩
  · intro m hm
    rw [h3 m (hunvis_of_out m hm)]
    exact hwf.1 m hm
  · intro m hm
    by_cases hvis : ∃ j, j < k ∧ m = p^[j] n
    · rw [h2 m hvis]
      obtain ⟨j, hj, -⟩ := hvis
      by_cases hn : n ∈ V
      · exact chain_last h ▸ chain_closed hwf.2.1 hn h k (le_refl k)
      · obtain ⟨-, hk0⟩ := chain_of_fixed (hwf.1 n hn) h
        omega
    · push_neg at hvis
      rw [h3 m hvis]
      exact hwf.2.1 m hm
  · intro m
    obtain ⟨r', kr, hchain⟩ := hwf.2.2 m
    obtain ⟨j', hj'⟩ := find_preserves h hfuel m r' kr hchain
    exact ⟨r', j', hj'⟩

/-- Re-pointing the root `rb` at the root `ra` redirects exactly the sets
rooted at `rb`. -/
theorem link_chain {p2 : String → String} {ra rb : String}
    (hrb : p2 rb = rb) (hra : p2 ra = ra) (hne : ra ≠ rb) {m r'' : String} {k : Nat}
    (h : Chain p2 m r'' k) :
    (r'' ≠ rb → Chain (fun x => if x = rb then ra else p2 x) m r'' k) ∧
    (r'' = rb → Chain (fun x => if x = rb then ra else p2 x) m ra (k + 1)) := by
  set q : String → String := fun x => if x = rb then ra else p2 x with hq
  induction h with
  | refl m hfix =>
    constructor
    · intro hmr
      refine Chain.refl m ?_
      show (if m = rb then ra else p2 m) = m
      rw [if_neg hmr, hfix]
    · intro hmr
      refine Chain.step m ra 0 ?_ ?_
      · show (if m = rb then ra else p2 m) ≠ m
        rw [if_pos hmr]
        intro h
        exact hne (h.trans hmr)
      · show Chain q (if m = rb then ra else p2 m) ra 0
        rw [if_pos hmr]
        refine Chain.refl ra ?_
        show (if ra = rb then ra else p2 ra) = ra
        rw [if_neg hne, hra]
  | step m r'' k hmfix hc ih =>
    have hmrb : m ≠ rb := by
      intro he
      rw [he, hrb] at hmfix
      exact hmfix rfl
    have hqm : q m = p2 m := by
      show (if m = rb then ra else p2 m) = p2 m
      rw [if_neg hmrb]
    constructor
    · intro hr
      refine Chain.step m r'' k ?_ ?_
      · rw [hqm]; exact hmfix
      · rw [hqm]; exact ih.1 hr
    · intro hr
      refine Chain.step m ra (k + 1) ?_ ?_
      · rw [hqm]; exact hmfix
      · rw [hqm]; exact ih.2 hr

/-- Full specification of `union` on registered nodes: the Boolean result
reports whether the two roots differed, the map stays well-formed, and each
node's root is unchanged unless it was `b`'s root, which (on a merge) becomes
`a`'s root. -/
theorem union_spec {p : String → String} {V : List String}
    (hwf : WFP p V) (hnd : V.Nodup) {fuel : Nat} (hfuel : V.length ≤ fuel)
    {a b : String} (ha : a ∈ V) (hb : b ∈ V) :
    ∃ ra rb, HasRoot p a ra ∧ HasRoot p b rb ∧
      ((union fuel p a b).1 = true ↔ ra ≠ rb) ∧
      WFP (union fuel p a b).2 V ∧
      (∀ m r', HasRoot p m r' →
        HasRoot (union fuel p a b).2 m (if ra ≠ rb ∧ r' = rb then ra else r')) := by
  obtain ⟨ra, ka, hca⟩ := hwf.2.2 a
  have hka : ka ≤ fuel := le_trans (chain_bound hwf hnd hca) hfuel
  have hfa := find_spec hca fuel hka
  set p1 := (find fuel p a).2 with hp1
  have hwf1 : WFP p1 V := find_wfp hwf hca hka
  have hpres1 : ∀ m r' j, Chain p m r' j → ∃ j', Chain p1 m r' j' :=
    find_preserves hca hka
  obtain ⟨rb, kb, hcb⟩ := hwf.2.2 b
  obtain ⟨kb1, hcb1⟩ := hpres1 b rb kb hcb
  have hkb1 : kb1 ≤ fuel := le_trans (chain_bound hwf1 hnd hcb1) hfuel
  have hfb := find_spec hcb1 fuel hkb1
  set p2 := (find fuel p1 b).2 with hp2
  have hwf2 : WFP p2 V := find_wfp hwf1 hcb1 hkb1
  have hpres2 : ∀ m r' j, Chain p1 m r' j → ∃ j', Chain p2 m r' j' :=
    find_preserves hcb1 hkb1
  have hpres12 : ∀ m r', HasRoot p m r' → HasRoot p2 m r' := by
    rintro m r' ⟨j, hj⟩
    obtain ⟨j1, hj1⟩ := hpres1 m r' j hj
    obtain ⟨j2, hj2⟩ := hpres2 m r' j1 hj1
    exact ⟨j2, hj2⟩
  have hresult : union fuel p a b =
      if ra ≠ rb then (true, fun m => if m = rb then ra else p2 m)
      else (false, p2) := by
    show (let fa := find fuel p a
          let fb := find fuel fa.2 b
          if fa.1 ≠ fb.1 then (true, fun m => if m = fb.1 then fa.1 else fb.2 m)
          else (false, fb.2)) = _
    simp only [← hp1, ← hp2, hfa.1, hfb.1]
  have hrbfix : p2 rb = rb := by
    obtain ⟨kb2, hcb2⟩ := hpres2 b rb kb1 hcb1
    exact chain_root_fixed hcb2
  have hrafix : p2 ra = ra := by
    obtain ⟨ka2, hca2⟩ := hpres12 a ra ⟨ka, hca⟩
    exact chain_root_fixed hca2
  refine ⟨ra, rb, ⟨ka, hca⟩, ⟨kb, hcb⟩, ?_, ?_, ?_⟩
  · rw [hresult]
    by_cases hr : ra = rb <;> simp [hr]
  · rw [hresult]
    by_cases hr : ra = rb
    · simpa [hr] using hwf2
    · rw [if_pos (by simpa using hr)]
      have hrbV : rb ∈ V := by
        obtain ⟨kb2, hcb2⟩ := hpres2 b rb kb1 hcb1
        have hlast : p2^[kb2] b = rb := chain_last hcb2
        exact hlast ▸ chain_closed hwf2.2.1 hb hcb2 kb2 (le_refl _)
      have hraV : ra ∈ V := by
        obtain ⟨ka2, hca2⟩ := hpres12 a ra ⟨ka, hca⟩
        have hlast : p2^[ka2] a = ra := chain_last hca2
        exact hlast ▸ chain_closed hwf2.2.1 ha hca2 ka2 (le_refl _)
      refine ⟨?_, ?_, ?_⟩
      · intro m hm
        have hmrb : m ≠ rb := fun he => hm (he ▸ hrbV)
        show (if m = rb then ra else p2 m) = m
        rw [if_neg hmrb]
        exact hwf2.1 m hm
      · intro m hm
        show (if m = rb then ra else p2 m) ∈ V
        by_cases he : m = rb
        · rw [if_pos he]; exact hraV
        · rw [if_neg he]; exact hwf2.2.1 m hm
      · intro m
        obtain ⟨r', k', hc'⟩ := hwf2.2.2 m
        by_cases he : r' = rb
        · exact ⟨ra, k' + 1, (link_chain hrbfix hrafix hr hc').2 he⟩
        · exact ⟨r', k', (link_chain hrbfix hrafix hr hc').1 he⟩
  · intro m r' hmr
    obtain ⟨k2, hc2⟩ := hpres12 m r' hmr
    rw [hresult]
    by_cases hrr : ra = rb
    · rw [if_neg (by simpa using hrr)]
      rw [if_neg (by simp [hrr])]
      exact ⟨k2, hc2⟩
    · rw [if_pos (by simpa using hrr)]
      by_cases he : r' = rb
      · rw [if_pos ⟨hrr, he⟩]
        exact ⟨k2 + 1, (link_chain hrbfix hrafix hrr hc2).2 he⟩
      · rw [if_neg (by simp [he])]
        exact ⟨k2, (link_chain hrbfix hrafix hrr hc2).1 he⟩

/-! ## Connectivity along edge sets -/

/-- Reverse the stored orientation of an edge. -/
def flipE (e : CEdge) : CEdge := ⟨e.v, e.u, e.w⟩

/-- The set of edges of a list closed under orientation reversal: the
orientation-independent ground set both algorithms select from. -/
def symCl (l : List CEdge) : Finset CEdge := (l ++ l.map flipE).toFinset

/-- `a` and `b` are joined by a single edge of `S` (in either orientation). -/
def touches (S : Finset CEdge) (a b : String) : Prop :=
  ∃ e ∈ S, (e.u = a ∧ e.v = b) ∨ (e.u = b ∧ e.v = a)

/-- `a` and `b` are joined by a path of edges of `S`. -/
def conn (S : Finset CEdge) : String → String → Prop :=
  Relation.ReflTransGen (touches S)

/-- Total weight of a selection. -/
def weightF (S : Finset CEdge) : Int := S.sum (fun e => e.w)

/-- A selection is acyclic (a forest): no edge's endpoints are already
connected by the remaining edges. -/
def Acyclic (S : Finset CEdge) : Prop :=
  ∀ e ∈ S, ¬ conn (S.erase e) e.u e.v

theorem touches_symm {S : Finset CEdge} {a b : String} (h : touches S a b) :
    touches S b a := by
  obtain ⟨e, he, h1⟩ := h
  exact ⟨e, he, h1.symm⟩

theorem conn_rfl {S : Finset CEdge} {a : String} : conn S a a :=
  Relation.ReflTransGen.refl

theorem conn_symm {S : Finset CEdge} {a b : String} (h : conn S a b) : conn S b a :=
  Relation.ReflTransGen.symmetric (fun _ _ hx => touches_symm hx) h

theorem conn_trans {S : Finset CEdge} {a b c : String} (h : conn S a b)
    (h' : conn S b c) : conn S a c :=
  Relation.ReflTransGen.trans h h'

theorem conn_mono {S S' : Finset CEdge} (hss : S ⊆ S') {a b : String}
    (h : conn S a b) : conn S' a b :=
  Relation.ReflTransGen.mono (fun _ _ hx => by
    obtain ⟨e, he, h1⟩ := hx
    exact ⟨e, hss he, h1⟩) h

theorem conn_single {S : Finset CEdge} {e : CEdge} (he : e ∈ S) :
    conn S e.u e.v :=
  Relation.ReflTransGen.single ⟨e, he, Or.inl ⟨rfl, rfl⟩⟩

theorem conn_empty_iff {a b : String} : conn (∅ : Finset CEdge) a b ↔ a = b := by
  constructor
  · intro h
    induction h with
    | refl => rfl
    | tail hxb hstep ih =>
      obtain ⟨f, hf, -⟩ := hstep
      simp at hf
  · rintro rfl
    exact conn_rfl

/-- Path decomposition across an inserted edge: a path in `insert e S` either
avoids `e` or splits into `S`-paths to the endpoints of `e`. -/
theorem conn_insert_decomp {S : Finset CEdge} {e : CEdge} {x y : String}
    (h : conn (insert e S) x y) :
    conn S x y ∨ (conn S x e.u ∧ conn S e.v y) ∨ (conn S x e.v ∧ conn S e.u y) := by
  induction h with
  | refl => exact Or.inl conn_rfl
  | tail hxb hstep ih =>
    obtain ⟨f, hf, hends⟩ := hstep
    rcases Finset.mem_insert.1 hf with rfl | hfS
    · rcases hends with ⟨h1, h2⟩ | ⟨h1, h2⟩
      · rcases ih with h3 | ⟨h3, h4⟩ | ⟨h3, h4⟩
        · exact Or.inr (Or.inl ⟨h1 ▸ h3, h2 ▸ conn_rfl⟩)
        · exact Or.inr (Or.inl ⟨h3, h2 ▸ conn_rfl⟩)
        · exact Or.inl (h2 ▸ h3)
      · rcases ih with h3 | ⟨h3, h4⟩ | ⟨h3, h4⟩
        · exact Or.inr (Or.inr ⟨h2 ▸ h3, h1 ▸ conn_rfl⟩)
        · exact Or.inl (h1 ▸ h3)
        · exact Or.inr (Or.inr ⟨h3, h1 ▸ conn_rfl⟩)
    · have htS : touches S _ _ := ⟨f, hfS, hends⟩
      rcases ih with h3 | ⟨h3, h4⟩ | ⟨h3, h4⟩
      · exact Or.inl (h3.tail htS)
      · exact Or.inr (Or.inl ⟨h3, h4.tail htS⟩)
      · exact Or.inr (Or.inr ⟨h3, h4.tail htS⟩)

/-- Inserting an edge whose endpoints are already connected changes nothing. -/
theorem conn_insert_of_conn {S : Finset CEdge} {e : CEdge}
    (he : conn S e.u e.v) {x y : String} (h : conn (insert e S) x y) :
    conn S x y := by
  rcases conn_insert_decomp h with h1 | ⟨h1, h2⟩ | ⟨h1, h2⟩
  · exact h1
  · exact conn_trans h1 (conn_trans he h2)
  · exact conn_trans h1 (conn_trans (conn_symm he) h2)

/-- If every edge of `S` has its endpoints connected in `S'`, then `S`-paths
are `S'`-paths. -/
theorem conn_of_edges_conn {S S' : Finset CEdge}
    (hS : ∀ f ∈ S, conn S' f.u f.v) {x y : String} (h : conn S x y) :
    conn S' x y := by
  induction h with
  | refl => exact conn_rfl
  | tail hxb hstep ih =>
    obtain ⟨f, hf, hends⟩ := hstep
    rcases hends with ⟨h1, h2⟩ | ⟨h1, h2⟩
    · exact conn_trans ih (h1 ▸ h2 ▸ hS f hf)
    · exact conn_trans ih (conn_symm (h1 ▸ h2 ▸ hS f hf))

/-- A path from inside `C` to outside `C` has a last crossing edge `f`; after
the crossing, the rest of the path avoids `f`. -/
theorem conn_last_crossing {T : Finset CEdge} {C : String → Prop} {x y : String}
    (h : conn T x y) (hx : C x) (hy : ¬ C y) :
    ∃ f ∈ T, ∃ pc qc, ((f.u = pc ∧ f.v = qc) ∨ (f.u = qc ∧ f.v = pc)) ∧
      C pc ∧ ¬ C qc ∧ conn (T.erase f) qc y := by
  induction h with
  | refl => exact absurd hx hy
  | @tail b y2 hxb hstep ih =>
    by_cases hb : C b
    · obtain ⟨f, hf, hends⟩ := hstep
      exact ⟨f, hf, b, y2, hends, hb, hy, conn_rfl⟩
    · obtain ⟨f, hf, pc, qc, hends, hpc, hqc, hconn⟩ := ih hb
      obtain ⟨g, hg, hgends⟩ := hstep
      have hgf : g ≠ f := by
        intro he
        subst he
        rcases hgends with ⟨h1, h2⟩ | ⟨h1, h2⟩ <;> rcases hends with ⟨h3, h4⟩ | ⟨h3, h4⟩
        · rw [h3] at h1; exact hb (h1 ▸ hpc)
        · rw [h4] at h2; exact hy (h2 ▸ hpc)
        · rw [h3] at h1; exact hy (h1 ▸ hpc)
        · rw [h4] at h2; exact hb (h2 ▸ hpc)
      exact ⟨f, hf, pc, qc, hends, hpc, hqc,
        hconn.tail ⟨g, Finset.mem_erase.2 ⟨hgf, hg⟩, hgends⟩⟩

/-- Adding an edge between two components of a forest yields a forest. -/
theorem acyclic_insert {S : Finset CEdge} {e : CEdge} (hS : Acyclic S)
    (he : ¬ conn S e.u e.v) : Acyclic (insert e S) := by
  have heS : e ∉ S := fun h => he (conn_single h)
  intro g hg
  rcases Finset.mem_insert.1 hg with rfl | hgS
  · rw [Finset.erase_insert heS]
    exact he
  · have hge : g ≠ e := fun h => heS (h ▸ hgS)
    rw [Finset.erase_insert_of_ne (Ne.symm hge)]
    intro hcon
    have hsub : S.erase g ⊆ S := Finset.erase_subset g S
    rcases conn_insert_decomp hcon with h1 | ⟨h1, h2⟩ | ⟨h1, h2⟩
    · exact hS g hgS h1
    · exact he (conn_trans (conn_symm (conn_mono hsub h1))
        (conn_trans (conn_single hgS) (conn_symm (conn_mono hsub h2))))
    · exact he (conn_trans (conn_mono hsub h2)
        (conn_trans (conn_symm (conn_single hgS)) (conn_mono hsub h1)))

theorem flipE_flipE (e : CEdge) : flipE (flipE e) = e := rfl

theorem mem_symCl {l : List CEdge} {e : CEdge} :
    e ∈ symCl l ↔ e ∈ l ∨ flipE e ∈ l := by
  simp only [symCl, List.mem_toFinset, List.mem_append, List.mem_map]
  constructor
  · rintro (h | ⟨f, hf, rfl⟩)
    · exact Or.inl h
    · exact Or.inr (by rwa [flipE_flipE])
  · rintro (h | h)
    · exact Or.inl h
    · exact Or.inr ⟨flipE e, h, rfl⟩

theorem touches_symCl_iff {l : List CEdge} {a b : String} :
    touches (symCl l) a b ↔ touches l.toFinset a b := by
  constructor
  · rintro ⟨e, he, hends⟩
    rcases mem_symCl.1 he with h | h
    · exact ⟨e, List.mem_toFinset.2 h, hends⟩
    · refine ⟨flipE e, List.mem_toFinset.2 h, ?_⟩
      rcases hends with ⟨h1, h2⟩ | ⟨h1, h2⟩
      · exact Or.inr ⟨h2, h1⟩
      · exact Or.inl ⟨h2, h1⟩
  · rintro ⟨e, he, hends⟩
    exact ⟨e, mem_symCl.2 (Or.inl (List.mem_toFinset.1 he)), hends⟩

theorem conn_symCl_iff {l : List CEdge} {a b : String} :
    conn (symCl l) a b ↔ conn l.toFinset a b := by
  constructor
  · intro h
    induction h with
    | refl => exact conn_rfl
    | tail hxb hstep ih => exact ih.tail (touches_symCl_iff.1 hstep)
  · intro h
    induction h with
    | refl => exact conn_rfl
    | tail hxb hstep ih => exact ih.tail (touches_symCl_iff.2 hstep)

/-! ## Minimum spanning forests and the exchange argument -/

/-- A valid forest selection over the ground set `E`: a subset of `E`,
acyclic, and connecting everything `E` connects (a spanning forest). -/
def Good (E S : Finset CEdge) : Prop :=
  S ⊆ E ∧ Acyclic S ∧ (∀ a b, conn S a b ↔ conn E a b)

/-- A spanning forest contained in an acyclic subset equals it. -/
theorem good_subset_eq {E A T : Finset CEdge} (hA : Good E A) (hTE : T ⊆ E)
    (hT : Acyclic T) (hAT : A ⊆ T) : A = T := by
  refine Finset.Subset.antisymm hAT ?_
  intro e heT
  by_contra heA
  have hconnE : conn E e.u e.v := conn_single (hTE heT)
  have hconnA : conn A e.u e.v := (hA.2.2 e.u e.v).2 hconnE
  have hsub : A ⊆ T.erase e := fun f hf =>
    Finset.mem_erase.2 ⟨fun h => heA (h ▸ hf), hAT hf⟩
  exact hT e heT (conn_mono hsub hconnA)

/-- A minimum-weight spanning forest exists as soon as any spanning forest
does. -/
theorem exists_min_good {E : Finset CEdge} (hne : ∃ S, Good E S) :
    ∃ T, Good E T ∧ ∀ S, Good E S → weightF T ≤ weightF S := by
  have hfin : {S : Finset CEdge | Good E S}.Finite := by
    apply Set.Finite.subset (E.powerset : Finset (Finset CEdge)).finite_toSet
    intro S hS
    simpa [Finset.mem_powerset] using hS.1
  obtain ⟨T, hT, hmin⟩ := Set.Finite.exists_minimal_wrt weightF _ hfin hne
  refine ⟨T, hT, fun S hS => ?_⟩
  rcases le_total (weightF T) (weightF S) with h | h
  · exact h
  · exact le_of_eq (hmin S hS h)

/-- Exchange step: if `e` is a minimum-weight edge of `E` crossing a cut `C`
that no edge of the partial forest `A ⊆ T` crosses, then some spanning forest
of weight at most `weightF T` contains `A` together with `e`. -/
theorem exchange_lemma {E T A : Finset CEdge} {e : CEdge} {C : String → Prop}
    (hTE : T ⊆ E) (hTac : Acyclic T) (hTsp : ∀ a b, conn T a b ↔ conn E a b)
    (hAT : A ⊆ T) (heE : e ∈ E)
    (haC : C e.u) (hbC : ¬ C e.v)
    (hAside : ∀ g ∈ A, (C g.u ↔ C g.v))
    (hAconn : ∀ pc, C pc → conn A e.u pc)
    (hwmin : ∀ f ∈ E, ((C f.u ∧ ¬ C f.v) ∨ (C f.v ∧ ¬ C f.u)) → e.w ≤ f.w) :
    ∃ T', T' ⊆ E ∧ Acyclic T' ∧ (∀ a b, conn T' a b ↔ conn E a b) ∧
      insert e A ⊆ T' ∧ weightF T' ≤ weightF T := by
  by_cases heT : e ∈ T
  · exact ⟨T, hTE, hTac, hTsp, Finset.insert_subset heT hAT, le_refl _⟩
  have hconnT : conn T e.u e.v := (hTsp e.u e.v).2 (conn_single heE)
  obtain ⟨f, hfT, pc, qc, hends, hpc, hqc, hconn⟩ :=
    conn_last_crossing hconnT haC hbC
  have hfA : f ∉ A := by
    intro hfA
    have hiff := hAside f hfA
    rcases hends with ⟨h1, h2⟩ | ⟨h1, h2⟩
    · exact hqc (h2.symm ▸ hiff.1 (h1.symm ▸ hpc))
    · exact hqc (h1.symm ▸ hiff.2 (h2.symm ▸ hpc))
  have hATf : A ⊆ T.erase f := fun g hg =>
    Finset.mem_erase.2 ⟨fun h => hfA (h ▸ hg), hAT hg⟩
  have hnab : ¬ conn (T.erase f) e.u e.v := by
    intro hab
    have h1 : conn (T.erase f) e.u pc := conn_mono hATf (hAconn pc hpc)
    have hpcqc : conn (T.erase f) pc qc :=
      conn_trans (conn_symm h1) (conn_trans hab (conn_symm hconn))
    apply hTac f hfT
    rcases hends with ⟨h3, h4⟩ | ⟨h3, h4⟩
    · rw [h3, h4]; exact hpcqc
    · rw [h3, h4]; exact conn_symm hpcqc
  have heTf : e ∉ T.erase f := fun h => heT (Finset.mem_erase.1 h).2
  refine ⟨insert e (T.erase f), ?_, ?_, ?_, ?_, ?_⟩
  · intro g hg
    rcases Finset.mem_insert.1 hg with rfl | hg
    · exact heE
    · exact hTE (Finset.mem_erase.1 hg).2
  · -- acyclicity of the exchanged forest
    intro g hg
    rcases Finset.mem_insert.1 hg with rfl | hg
    · rw [Finset.erase_insert heTf]
      exact hnab
    · have hge : g ≠ e := fun h => heTf (h ▸ hg)
      rw [Finset.erase_insert_of_ne (Ne.symm hge)]
      intro hcon
      have hsub2 : (T.erase f).erase g ⊆ T.erase f := Finset.erase_subset g (T.erase f)
      rcases conn_insert_decomp hcon with h1 | ⟨h1, h2⟩ | ⟨h1, h2⟩
      · have hgT : g ∈ T := (Finset.mem_erase.1 hg).2
        apply hTac g hgT
        refine conn_mono ?_ h1
        intro x hx
        obtain ⟨hxg, hxf⟩ := Finset.mem_erase.1 hx
        exact Finset.mem_erase.2 ⟨hxg, (Finset.mem_erase.1 hxf).2⟩
      · exact hnab (conn_trans (conn_symm (conn_mono hsub2 h1))
          (conn_trans (conn_single hg) (conn_symm (conn_mono hsub2 h2))))
      · exact hnab (conn_trans (conn_mono hsub2 h2)
          (conn_trans (conn_symm (conn_single hg)) (conn_mono hsub2 h1)))
  · -- spanning
    have hfT' : conn (insert e (T.erase f)) f.u f.v := by
      have h1 : conn (insert e (T.erase f)) pc e.u :=
        conn_symm (conn_mono (hATf.trans (Finset.subset_insert e _)) (hAconn pc hpc))
      have h2 : conn (insert e (T.erase f)) e.u e.v :=
        conn_single (Finset.mem_insert_self e _)
      have h3 : conn (insert e (T.erase f)) e.v qc :=
        conn_symm (conn_mono (Finset.subset_insert e _) hconn)
      have hpq : conn (insert e (T.erase f)) pc qc :=
        conn_trans h1 (conn_trans h2 h3)
      rcases hends with ⟨h4, h5⟩ | ⟨h4, h5⟩
      · rw [h4, h5]; exact hpq
      · rw [h4, h5]; exact conn_symm hpq
    intro a b
    constructor
    · intro h
      refine conn_mono ?_ h
      intro g hg
      rcases Finset.mem_insert.1 hg with rfl | hg
      · exact heE
      · exact hTE (Finset.mem_erase.1 hg).2
    · intro h
      refine conn_of_edges_conn ?_ ((hTsp a b).2 h)
      intro g hg
      by_cases hgf : g = f
      · exact hgf ▸ hfT'
      · exact conn_single (Finset.mem_insert.2 (Or.inr (Finset.mem_erase.2 ⟨hgf, hg⟩)))
  · exact Finset.insert_subset_insert e hATf
  · -- weight comparison
    have hwf' : e.w ≤ f.w := by
      apply hwmin f (hTE hfT)
      rcases hends with ⟨h1, h2⟩ | ⟨h1, h2⟩
      · exact Or.inl ⟨h1.symm ▸ hpc, h2.symm ▸ hqc⟩
      · exact Or.inr ⟨h2.symm ▸ hpc, h1.symm ▸ hqc⟩
    have h1 : weightF (insert e (T.erase f)) = e.w + weightF (T.erase f) :=
      Finset.sum_insert heTf
    have h2 : weightF (T.erase f) + f.w = weightF T :=
      Finset.sum_erase_add T _ hfT
    unfold weightF at h1 h2 ⊢
    omega

/-! ## Union-find tracks connectivity of the accepted edges -/

theorem sameSet_iff_roots {p : String → String} {x y rx ry : String}
    (hx : HasRoot p x rx) (hy : HasRoot p y ry) :
    sameSet p x y ↔ rx = ry := by
  constructor
  · rintro ⟨r, hxr, hyr⟩
    rw [hasRoot_unique hx hxr, hasRoot_unique hy hyr]
  · rintro rfl
    exact ⟨rx, hx, hy⟩

/-- The root computed by `find` with the standard fuel. -/
def rootF (V : List String) (p : String → String) (n : String) : String :=
  (find V.length p n).1

theorem rootF_hasRoot {p : String → String} {V : List String}
    (hwf : WFP p V) (hnd : V.Nodup) (n : String) : HasRoot p n (rootF V p n) := by
  obtain ⟨r, k, hc⟩ := hwf.2.2 n
  have hk : k ≤ V.length := chain_bound hwf hnd hc
  have := (find_spec hc V.length hk).1
  rw [rootF, this]
  exact ⟨k, hc⟩

/-- Master lemma linking one `union` call to connectivity over the accepted
edge set `A`: the Boolean result detects non-connectivity, and the resulting
partition matches `A` plus the new edge (on a merge) or `A` (on a skip). -/
theorem union_conn_spec {p : String → String} {V : List String} {A : Finset CEdge}
    (hwf : WFP p V) (hnd : V.Nodup) {fuel : Nat} (hfuel : V.length ≤ fuel)
    {a b : String} (ha : a ∈ V) (hb : b ∈ V)
    (hA : ∀ x y, sameSet p x y ↔ conn A x y) :
    WFP (union fuel p a b).2 V ∧
    ((union fuel p a b).1 = true ↔ ¬ conn A a b) ∧
    ((union fuel p a b).1 = true → ∀ (e : CEdge), e.u = a → e.v = b →
      ∀ x y, sameSet (union fuel p a b).2 x y ↔ conn (insert e A) x y) ∧
    ((union fuel p a b).1 = false → ∀ x y,
      sameSet (union fuel p a b).2 x y ↔ conn A x y) ∧
    ((union fuel p a b).1 = true → ∀ x, rootF V (union fuel p a b).2 x =
      (if rootF V p x = rootF V p b then rootF V p a else rootF V p x)) ∧
    ((union fuel p a b).1 = false → ∀ x, rootF V (union fuel p a b).2 x = rootF V p x) := by
  obtain ⟨ra, rb, hra, hrb, hbool, hwf', hroot⟩ := union_spec hwf hnd hfuel ha hb
  have hrootsOf : ∀ x, HasRoot p x (rootF V p x) := rootF_hasRoot hwf hnd
  have hrootsOf' : ∀ x, HasRoot (union fuel p a b).2 x (rootF V (union fuel p a b).2 x) :=
    rootF_hasRoot hwf' hnd
  have hxroot' : ∀ x, HasRoot (union fuel p a b).2 x
      (if ra ≠ rb ∧ rootF V p x = rb then ra else rootF V p x) :=
    fun x => hroot x _ (hrootsOf x)
  have hrootF' : ∀ x, rootF V (union fuel p a b).2 x =
      (if ra ≠ rb ∧ rootF V p x = rb then ra else rootF V p x) :=
    fun x => hasRoot_unique (hrootsOf' x) (hxroot' x)
  have hsame : ∀ x y, sameSet p x y ↔ rootF V p x = rootF V p y :=
    fun x y => sameSet_iff_roots (hrootsOf x) (hrootsOf y)
  have hsame' : ∀ x y, sameSet (union fuel p a b).2 x y ↔
      rootF V (union fuel p a b).2 x = rootF V (union fuel p a b).2 y :=
    fun x y => sameSet_iff_roots (hrootsOf' x) (hrootsOf' y)
  have hrfa : rootF V p a = ra := hasRoot_unique (hrootsOf a) hra
  have hrfb : rootF V p b = rb := hasRoot_unique (hrootsOf b) hrb
  have hconn_ab : conn A a b ↔ ra = rb := by
    rw [← hA a b, hsame a b, hrfa, hrfb]
  have hfalse_eq : (union fuel p a b).1 = false → ra = rb := by
    intro hfalse
    by_contra hne
    have htrue := hbool.2 hne
    rw [htrue] at hfalse
    exact Bool.noConfusion hfalse
  refine ⟨hwf', ?_, ?_, ?_, ?_, ?_⟩
  · rw [hbool, hconn_ab]
  · intro htrue e heu hev x y
    have hrab : ra ≠ rb := hbool.1 htrue
    have hcx : conn A x a ↔ rootF V p x = ra := by rw [← hA, hsame, hrfa]
    have hcy : conn A y a ↔ rootF V p y = ra := by rw [← hA, hsame, hrfa]
    have hdx : conn A x b ↔ rootF V p x = rb := by rw [← hA, hsame, hrfb]
    have hdy : conn A y b ↔ rootF V p y = rb := by rw [← hA, hsame, hrfb]
    have hxy : conn A x y ↔ rootF V p x = rootF V p y := by rw [← hA, hsame]
    have hsubst : conn (insert e A) a b := by
      have hself : conn (insert e A) e.u e.v := conn_single (Finset.mem_insert_self e A)
      rwa [heu, hev] at hself
    rw [hsame' x y, hrootF' x, hrootF' y]
    constructor
    · intro h
      by_cases h1 : rootF V p x = rb <;> by_cases h2 : rootF V p y = rb
      · exact conn_mono (Finset.subset_insert e A) (hxy.2 (h1.trans h2.symm))
      · rw [if_pos ⟨hrab, h1⟩, if_neg (fun hc => h2 hc.2)] at h
        have hxb : conn A x b := hdx.2 h1
        have hya : conn A y a := hcy.2 h.symm
        exact conn_trans (conn_mono (Finset.subset_insert e A) hxb)
          (conn_trans (conn_symm hsubst)
            (conn_symm (conn_mono (Finset.subset_insert e A) hya)))
      · rw [if_neg (fun hc => h1 hc.2), if_pos ⟨hrab, h2⟩] at h
        have hxa : conn A x a := hcx.2 h
        have hyb : conn A y b := hdy.2 h2
        exact conn_trans (conn_mono (Finset.subset_insert e A) hxa)
          (conn_trans hsubst (conn_symm (conn_mono (Finset.subset_insert e A) hyb)))
      · rw [if_neg (fun hc => h1 hc.2), if_neg (fun hc => h2 hc.2)] at h
        exact conn_mono (Finset.subset_insert e A) (hxy.2 h)
    · intro h
      rcases conn_insert_decomp h with h1 | ⟨h1, h2⟩ | ⟨h1, h2⟩
      · rw [hxy.1 h1]
      · have hx1 : rootF V p x = ra := hcx.1 (heu ▸ h1)
        have hy1 : rootF V p y = rb := hdy.1 (conn_symm (hev ▸ h2))
        rw [hx1, hy1, if_neg (fun hc => hrab hc.2), if_pos ⟨hrab, rfl⟩]
      · have hx1 : rootF V p x = rb := hdx.1 (hev ▸ h1)
        have hy1 : rootF V p y = ra := hcy.1 (conn_symm (heu ▸ h2))
        rw [hx1, hy1, if_pos ⟨hrab, rfl⟩, if_neg (fun hc => hrab hc.2)]
  · intro hfalse x y
    have hrab : ra = rb := hfalse_eq hfalse
    have hcoll : ∀ z, rootF V (union fuel p a b).2 z = rootF V p z := by
      intro z
      rw [hrootF' z, if_neg (fun hc => hc.1 hrab)]
    rw [hsame' x y, hcoll x, hcoll y, ← hsame x y, hA x y]
  · intro htrue x
    have hrab : ra ≠ rb := hbool.1 htrue
    rw [hrootF' x, hrfa, hrfb]
    by_cases h1 : rootF V p x = rb
    · rw [if_pos ⟨hrab, h1⟩, if_pos h1]
    · rw [if_neg (fun hc => h1 hc.2), if_neg h1]
  · intro hfalse x
    have hrab : ra = rb := hfalse_eq hfalse
    rw [hrootF' x, if_neg (fun hc => hc.1 hrab)]

/-! ## The `networkx` edge enumeration -/

theorem nbrsOf_sound {es : List CEdge} {n m : String} {w : Int}
    (h : (m, w) ∈ nbrsOf es n) :
    (⟨n, m, w⟩ : CEdge) ∈ es ∨ (⟨m, n, w⟩ : CEdge) ∈ es := by
  rw [nbrsOf, List.mem_filterMap] at h
  obtain ⟨e, he, hfe⟩ := h
  split_ifs at hfe with h1 h2
  · left
    obtain ⟨hm, hw⟩ : e.v = m ∧ e.w = w := by simpa using hfe
    have he2 : e = ⟨n, m, w⟩ := by
      cases e
      simp_all
    exact he2 ▸ he
  · right
    obtain ⟨hm, hw⟩ : e.u = m ∧ e.w = w := by simpa using hfe
    have he2 : e = ⟨m, n, w⟩ := by
      cases e
      simp_all
    exact he2 ▸ he

theorem nbrsOf_complete {es : List CEdge} {e : CEdge} (he : e ∈ symCl es) :
    (e.v, e.w) ∈ nbrsOf es e.u := by
  rw [nbrsOf, List.mem_filterMap]
  rcases mem_symCl.1 he with h | h
  · exact ⟨e, h, by rw [if_pos rfl]⟩
  · refine ⟨flipE e, h, ?_⟩
    show (if e.v = e.u then some (e.u, e.w) else if e.u = e.u then some (e.v, e.w)
      else none) = some (e.v, e.w)
    by_cases hvu : e.v = e.u
    · rw [if_pos hvu, hvu]
    · rw [if_neg hvu, if_pos rfl]

theorem nxEdgesAux_sound {es : List CEdge} :
    ∀ ns seen (e : CEdge), e ∈ nxEdgesAux es ns seen → e ∈ symCl es := by
  intro ns
  induction ns with
  | nil =>
    intro seen e he
    simp [nxEdgesAux] at he
  | cons n rest ih =>
    intro seen e he
    rw [nxEdgesAux] at he
    rcases List.mem_append.1 he with h | h
    · rw [List.mem_map] at h
      obtain ⟨pr, hp, rfl⟩ := h
      rw [List.mem_filter] at hp
      rcases pr with ⟨m, w⟩
      rcases nbrsOf_sound hp.1 with h2 | h2
      · exact mem_symCl.2 (Or.inl h2)
      · exact mem_symCl.2 (Or.inr h2)
    · exact ih _ e h

theorem nxEdgesAux_cover {es : List CEdge} :
    ∀ ns seen (e : CEdge), e ∈ es → e.u ∉ seen → e.v ∉ seen → e.u ∈ ns → e.v ∈ ns →
    e ∈ nxEdgesAux es ns seen ∨ flipE e ∈ nxEdgesAux es ns seen := by
  intro ns
  induction ns with
  | nil =>
    intro seen e _ _ _ hu _
    simp at hu
  | cons n rest ih =>
    intro seen e he hus hvs hun hvn
    rw [nxEdgesAux]
    by_cases h1 : e.u = n
    · left
      apply List.mem_append_left
      rw [List.mem_map]
      refine ⟨(e.v, e.w), ?_, ?_⟩
      · rw [List.mem_filter]
        refine ⟨?_, by simpa using hvs⟩
        have hc := nbrsOf_complete (mem_symCl.2 (Or.inl he))
        rwa [h1] at hc
      · show (⟨n, e.v, e.w⟩ : CEdge) = e
        cases e
        simp_all
    · by_cases h2 : e.v = n
      · right
        apply List.mem_append_left
        rw [List.mem_map]
        refine ⟨(e.u, e.w), ?_, ?_⟩
        · rw [List.mem_filter]
          refine ⟨?_, by simpa using hus⟩
          have hsym : flipE e ∈ symCl es := mem_symCl.2 (Or.inr (by rw [flipE_flipE]; exact he))
          have hc := nbrsOf_complete hsym
          show (e.u, e.w) ∈ nbrsOf es n
          rw [← h2]
          exact hc
        · show (⟨n, e.u, e.w⟩ : CEdge) = flipE e
          cases e
          simp_all [flipE]
      · have hrec := ih (n :: seen) e he
          (by simp [h1, hus]) (by simp [h2, hvs])
          (by rcases List.mem_cons.1 hun with h | h; exact absurd h h1; exact h)
          (by rcases List.mem_cons.1 hvn with h | h; exact absurd h h2; exact h)
        rcases hrec with h | h
        · exact Or.inl (List.mem_append_right _ h)
        · exact Or.inr (List.mem_append_right _ h)

/-- Every edge enumerated by `graph.edges(data=True)` is a stored edge up to
orientation. -/
theorem nxEdges_sound {g : CampusNetwork} {e : CEdge} (h : e ∈ nxEdges g) :
    e ∈ symCl g.edges :=
  nxEdgesAux_sound g.nodes [] e h

/-- Every stored edge is enumerated by `graph.edges(data=True)` in some
orientation (endpoints must be registered nodes). -/
theorem nxEdges_cover {g : CampusNetwork} {e : CEdge} (he : e ∈ g.edges)
    (hu : e.u ∈ g.nodes) (hv : e.v ∈ g.nodes) :
    e ∈ nxEdges g ∨ flipE e ∈ nxEdges g :=
  nxEdgesAux_cover g.nodes [] e he (by simp) (by simp) hu hv

/-! ## Class counting -/

theorem image_collapse_card {s : Finset String} {ra rb : String}
    (hra : ra ∈ s) (hrb : rb ∈ s) (hne : ra ≠ rb) :
    (s.image (fun x => if x = rb then ra else x)).card = s.card - 1 := by
  have himg : s.image (fun x => if x = rb then ra else x) = s.erase rb := by
    ext x
    simp only [Finset.mem_image, Finset.mem_erase]
    constructor
    · rintro ⟨y, hy, rfl⟩
      by_cases hyr : y = rb
      · rw [if_pos hyr]
        exact ⟨hne, hra⟩
      · rw [if_neg hyr]
        exact ⟨hyr, hy⟩
    · rintro ⟨hx, hxs⟩
      exact ⟨x, hxs, if_neg hx⟩
  rw [himg, Finset.card_erase_of_mem hrb]

/-- Two functions that each classify the same equivalence on a finite set
have image sets of the same size (both count the classes). -/
theorem image_card_eq_of_classify {V : Finset String} {R : String → String → Prop}
    {f g : String → String}
    (hf : ∀ x ∈ V, ∀ y ∈ V, f x = f y ↔ R x y)
    (hg : ∀ x ∈ V, ∀ y ∈ V, g x = g y ↔ R x y) :
    (V.image f).card = (V.image g).card := by
  classical
  apply Finset.card_bij (fun a ha => g (Finset.mem_image.1 ha).choose)
  · intro a ha
    have hspec := (Finset.mem_image.1 ha).choose_spec
    exact Finset.mem_image.2 ⟨_, hspec.1, rfl⟩
  · intro a₁ ha₁ a₂ ha₂ heq
    have h1 := (Finset.mem_image.1 ha₁).choose_spec
    have h2 := (Finset.mem_image.1 ha₂).choose_spec
    have hr : R (Finset.mem_image.1 ha₁).choose (Finset.mem_image.1 ha₂).choose :=
      (hg _ h1.1 _ h2.1).1 heq
    have hfe : f (Finset.mem_image.1 ha₁).choose = f (Finset.mem_image.1 ha₂).choose :=
      (hf _ h1.1 _ h2.1).2 hr
    rw [← h1.2, ← h2.2, hfe]
  · intro b hb
    obtain ⟨w, hw, rfl⟩ := Finset.mem_image.1 hb
    have hafw : f w ∈ V.image f := Finset.mem_image.2 ⟨w, hw, rfl⟩
    refine ⟨f w, hafw, ?_⟩
    have hspec := (Finset.mem_image.1 hafw).choose_spec
    have hr : R (Finset.mem_image.1 hafw).choose w := (hf _ hspec.1 _ hw).1 hspec.2
    exact (hg _ hspec.1 _ hw).2 hr

/-! ## Incremental acyclicity and the union-find replay -/

/-- Each edge of the list joins two components not yet connected by the
preceding edges (together with the fixed prefix `pre`). -/
def IncAcyclicFrom : Finset CEdge → List CEdge → Prop
  | _, [] => True
  | pre, e :: rest => ¬ conn pre e.u e.v ∧ IncAcyclicFrom (insert e pre) rest

def IncAcyclic (l : List CEdge) : Prop := IncAcyclicFrom ∅ l

theorem incAcyclicFrom_append {xs : List CEdge} {e : CEdge} :
    ∀ {pre : Finset CEdge}, IncAcyclicFrom pre xs → ¬ conn (pre ∪ xs.toFinset) e.u e.v →
      IncAcyclicFrom pre (xs ++ [e]) := by
  induction xs with
  | nil =>
    intro pre _ hnc
    refine ⟨?_, trivial⟩
    simpa using hnc
  | cons f rest ih =>
    intro pre hinc hnc
    refine ⟨hinc.1, ?_⟩
    apply ih hinc.2
    have hset : insert f pre ∪ rest.toFinset = pre ∪ (f :: rest).toFinset := by
      ext x
      simp only [Finset.mem_union, Finset.mem_insert, List.toFinset_cons]
      tauto
    rw [hset]
    exact hnc

theorem touchedNodes_mem {es : List CEdge} {e : CEdge} (he : e ∈ es) :
    e.u ∈ (touchedNodes es).dedup ∧ e.v ∈ (touchedNodes es).dedup := by
  refine ⟨?_, ?_⟩ <;>
  · rw [List.mem_dedup, touchedNodes, List.mem_flatMap]
    exact ⟨e, he, by simp⟩

theorem touchedNodes_length (es : List CEdge) :
    (touchedNodes es).length = 2 * es.length := by
  induction es with
  | nil => rfl
  | cons e rest ih =>
    simp only [touchedNodes, List.flatMap_cons, List.length_append] at ih ⊢
    simp only [List.length_cons, List.length_nil, List.length_cons]
    omega

theorem WFP_id (V : List String) : WFP (fun n => n) V :=
  ⟨fun _ _ => rfl, fun n hn => hn, fun n => ⟨n, 0, Chain.refl n rfl⟩⟩

theorem sameSet_id {x y : String} : sameSet (fun n => n) x y ↔ x = y := by
  constructor
  · rintro ⟨r, ⟨kx, hx⟩, ⟨ky, hy⟩⟩
    obtain ⟨hrx, -⟩ := chain_of_fixed rfl hx
    obtain ⟨hry, -⟩ := chain_of_fixed rfl hy
    rw [← hrx, hry]
  · rintro rfl
    exact ⟨x, ⟨0, Chain.refl x rfl⟩, ⟨0, Chain.refl x rfl⟩⟩

theorem replay_aux {V : List String} (hnd : V.Nodup) {fuel : Nat}
    (hfuel : V.length ≤ fuel) :
    ∀ (rest : List CEdge) (p : String → String) (A : Finset CEdge),
      WFP p V → (∀ x y, sameSet p x y ↔ conn A x y) →
      IncAcyclicFrom A rest →
      (∀ e ∈ rest, e.u ∈ V ∧ e.v ∈ V) →
      (rest.foldl (fun (st : Bool × (String → String)) e =>
        let r := union fuel st.2 e.u e.v
        (st.1 && r.1, r.2)) (true, p)).1 = true := by
  intro rest
  induction rest with
  | nil =>
    intro p A _ _ _ _
    rfl
  | cons e rest ih =>
    intro p A hwf hsame hinc hmem
    obtain ⟨hwf', hbool, htrue_merge, -, -, -⟩ :=
      union_conn_spec hwf hnd hfuel (hmem e (by simp)).1 (hmem e (by simp)).2 hsame
    have hb : (union fuel p e.u e.v).1 = true := hbool.2 hinc.1
    have hstep : (List.foldl (fun (st : Bool × (String → String)) e =>
        let r := union fuel st.2 e.u e.v
        (st.1 && r.1, r.2)) (true, p) (e :: rest)) =
        List.foldl (fun (st : Bool × (String → String)) e =>
        let r := union fuel st.2 e.u e.v
        (st.1 && r.1, r.2)) (true, (union fuel p e.u e.v).2) rest := by
      rw [List.foldl_cons]
      congr 1
      show (true && (union fuel p e.u e.v).1, (union fuel p e.u e.v).2) = _
      rw [hb]
      rfl
    rw [hstep]
    exact ih (union fuel p e.u e.v).2 (insert e A) hwf'
      (htrue_merge hb e rfl rfl) hinc.2
      (fun f hf => hmem f (List.mem_cons.2 (Or.inr hf)))

/-- A list of edges each joining two previously separate components passes
the union-find replay. -/
theorem replayOk_of_incAcyclic {es : List CEdge} (h : IncAcyclic es) :
    replayOk es = true := by
  rw [replayOk]
  have hnd : ((touchedNodes es).dedup).Nodup := List.nodup_dedup _
  have hfuel : (touchedNodes es).dedup.length ≤ 2 * es.length + 1 := by
    have h1 : (touchedNodes es).dedup.length ≤ (touchedNodes es).length :=
      (List.dedup_sublist _).length_le
    have h2 := touchedNodes_length es
    omega
  exact replay_aux hnd hfuel es (fun n => n) ∅ (WFP_id _)
    (fun x y => by rw [sameSet_id, conn_empty_iff]) h
    (fun e he => touchedNodes_mem he)

/-! ## Kruskal's edge loop: main invariant -/

theorem toFinset_append_singleton (l : List CEdge) (e : CEdge) :
    (l ++ [e]).toFinset = insert e l.toFinset := by
  ext x
  simp only [List.mem_toFinset, List.mem_append, List.mem_singleton, Finset.mem_insert]
  tauto

theorem nodup_append_singleton {α : Type} {l : List α} {e : α}
    (h : l.Nodup) (he : e ∉ l) : (l ++ [e]).Nodup := by
  rw [List.nodup_append]
  exact ⟨h, List.nodup_singleton e, by simpa using he⟩

theorem kruskalFold_spec {V : List String} (hV : V.Nodup) {E : Finset CEdge} :
    ∀ (rest : List CEdge) (p : String → String) (acc : List CEdge) (total : Int),
    WFP p V →
    (∀ x y, sameSet p x y ↔ conn acc.toFinset x y) →
    acc.toFinset ⊆ E →
    Acyclic acc.toFinset →
    acc.Nodup →
    IncAcyclic acc →
    total = weightF acc.toFinset →
    (∃ T, Good E T ∧ (∀ S, Good E S → weightF T ≤ weightF S) ∧ acc.toFinset ⊆ T) →
    (∀ f ∈ rest, f.u ∈ V ∧ f.v ∈ V ∧ f ∈ E) →
    rest.Pairwise wleR →
    (∀ f ∈ E, conn acc.toFinset f.u f.v ∨ f ∈ rest.toFinset ∨ flipE f ∈ rest.toFinset) →
    acc.length + (V.toFinset.image (rootF V p)).card = V.length →
    ((kruskalFold V.length p rest acc total).1.toFinset ⊆ E ∧
     Acyclic (kruskalFold V.length p rest acc total).1.toFinset ∧
     (kruskalFold V.length p rest acc total).1.Nodup ∧
     IncAcyclic (kruskalFold V.length p rest acc total).1 ∧
     (kruskalFold V.length p rest acc total).2 =
       weightF (kruskalFold V.length p rest acc total).1.toFinset ∧
     (∀ x y, conn (kruskalFold V.length p rest acc total).1.toFinset x y ↔ conn E x y) ∧
     (∀ S, Good E S → weightF (kruskalFold V.length p rest acc total).1.toFinset ≤ weightF S) ∧
     (∀ rep : String → String, (∀ x ∈ V, ∀ y ∈ V, (rep x = rep y ↔ conn E x y)) →
       (kruskalFold V.length p rest acc total).1.length +
         (V.toFinset.image rep).card = V.length)) := by
  intro rest
  induction rest with
  | nil =>
    intro p acc total hwfp hsame hsubE hacy hnd hinc htot hmin hrest hsort hremain hcount
    simp only [kruskalFold]
    have hedges : ∀ f ∈ E, conn acc.toFinset f.u f.v := by
      intro f hf
      rcases hremain f hf with h | h | h
      · exact h
      · simp at h
      · simp at h
    have hspan : ∀ x y, conn acc.toFinset x y ↔ conn E x y := by
      intro x y
      exact ⟨fun h => conn_mono hsubE h, fun h => conn_of_edges_conn hedges h⟩
    have hgood : Good E acc.toFinset := ⟨hsubE, hacy, hspan⟩
    obtain ⟨T, hTgood, hTmin, haccT⟩ := hmin
    have heq : acc.toFinset = T := good_subset_eq hgood hTgood.1 hTgood.2.1 haccT
    refine ⟨hsubE, hacy, hnd, hinc, htot, hspan, ?_, ?_⟩
    · intro S hS
      rw [heq]
      exact hTmin S hS
    · intro rep hrep
      have hcls := image_card_eq_of_classify
        (V := V.toFinset) (f := rootF V p) (g := rep) (R := conn E) ?_ ?_
      · rw [← hcls]
        exact hcount
      · intro x hx y hy
        rw [← sameSet_iff_roots (rootF_hasRoot hwfp hV x) (rootF_hasRoot hwfp hV y),
          hsame, hspan]
      · intro x hx y hy
        exact hrep x (List.mem_toFinset.1 hx) y (List.mem_toFinset.1 hy)
  | cons e rest' ih =>
    intro p acc total hwfp hsame hsubE hacy hnd hinc htot hmin hrest hsort hremain hcount
    obtain ⟨heu, hev, heE⟩ := hrest e (List.mem_cons_self e rest')
    obtain ⟨hwf', hbool, htrue_merge, hfalse_keep, htrue_root, hfalse_root⟩ :=
      union_conn_spec hwfp hV (le_refl V.length) heu hev hsame
    obtain ⟨hhead, htail⟩ := List.pairwise_cons.1 hsort
    by_cases hb : (union V.length p e.u e.v).1 = true
    · -- merge: the edge is kept
      have hnc : ¬ conn acc.toFinset e.u e.v := hbool.1 hb
      have heacc : e ∉ acc := fun h => hnc (conn_single (List.mem_toFinset.2 h))
      have haccF : (acc ++ [e]).toFinset = insert e acc.toFinset :=
        toFinset_append_singleton acc e
      have heaccF : e ∉ acc.toFinset := fun h => heacc (List.mem_toFinset.1 h)
      have hstep : kruskalFold V.length p (e :: rest') acc total =
          kruskalFold V.length (union V.length p e.u e.v).2 rest'
            (acc ++ [e]) (total + e.w) := by
        simp only [kruskalFold, hb, if_true]
      rw [hstep]
      -- exchange to extend the minimal forest witness
      obtain ⟨T, hTgood, hTmin, haccT⟩ := hmin
      have hwmin : ∀ f ∈ E,
          ((conn acc.toFinset e.u f.u ∧ ¬ conn acc.toFinset e.u f.v) ∨
           (conn acc.toFinset e.u f.v ∧ ¬ conn acc.toFinset e.u f.u)) → e.w ≤ f.w := by
        intro f hf hcross
        have hnconn : ¬ conn acc.toFinset f.u f.v := by
          rcases hcross with ⟨h1, h2⟩ | ⟨h1, h2⟩
          · exact fun hc => h2 (conn_trans h1 hc)
          · exact fun hc => h2 (conn_trans h1 (conn_symm hc))
        rcases hremain f hf with h | h | h
        · exact absurd h hnconn
        · rcases List.mem_cons.1 (List.mem_toFinset.1 h) with h2 | h2
          · exact le_of_eq (by rw [h2])
          · exact hhead f h2
        · rcases List.mem_cons.1 (List.mem_toFinset.1 h) with h2 | h2
          · have hfe : f = flipE e := by
              rw [← flipE_flipE f, h2]
            exact le_of_eq (by rw [hfe]; rfl)
          · exact hhead (flipE f) h2
      obtain ⟨T', hT'E, hT'ac, hT'sp, hT'cont, hT'w⟩ :=
        exchange_lemma (C := fun z => conn acc.toFinset e.u z)
          hTgood.1 hTgood.2.1 hTgood.2.2 haccT heE
          conn_rfl hnc
          (fun g hg => ⟨fun h => conn_trans h (conn_single hg),
            fun h => conn_trans h (conn_symm (conn_single hg))⟩)
          (fun pc hpc => hpc)
          hwmin
      apply ih (union V.length p e.u e.v).2 (acc ++ [e]) (total + e.w)
      · exact hwf'
      · intro x y
        rw [haccF]
        exact htrue_merge hb e rfl rfl x y
      · rw [haccF]
        exact Finset.insert_subset heE hsubE
      · rw [haccF]
        exact acyclic_insert hacy hnc
      · exact nodup_append_singleton hnd heacc
      · exact incAcyclicFrom_append hinc (by simpa using hnc)
      · rw [haccF, htot, weightF, weightF, Finset.sum_insert heaccF]
        omega
      · refine ⟨T', ⟨hT'E, hT'ac, hT'sp⟩, fun S hS => le_trans hT'w (hTmin S hS), ?_⟩
        rw [haccF]
        exact hT'cont
      · intro f hf
        exact hrest f (List.mem_cons.2 (Or.inr hf))
      · exact htail
      · intro f hf
        rcases hremain f hf with h | h | h
        · exact Or.inl (conn_mono (by rw [haccF]; exact Finset.subset_insert e _) h)
        · rcases List.mem_cons.1 (List.mem_toFinset.1 h) with h2 | h2
          · subst h2
            exact Or.inl (by
              rw [haccF]
              exact conn_single (Finset.mem_insert_self f _))
          · exact Or.inr (Or.inl (List.mem_toFinset.2 h2))
        · rcases List.mem_cons.1 (List.mem_toFinset.1 h) with h2 | h2
          · have hfe : f = flipE e := by rw [← flipE_flipE f, h2]
            refine Or.inl ?_
            rw [haccF, hfe]
            exact conn_symm (conn_single (Finset.mem_insert_self e _))
          · exact Or.inr (Or.inr (List.mem_toFinset.2 h2))
      · -- class count drops by one on a merge
        have himg : V.toFinset.image (rootF V (union V.length p e.u e.v).2) =
            (V.toFinset.image (rootF V p)).image
              (fun x => if x = rootF V p e.v then rootF V p e.u else x) := by
          rw [Finset.image_image]
          apply Finset.image_congr
          intro x _
          exact htrue_root hb x
        have hraimg : rootF V p e.u ∈ V.toFinset.image (rootF V p) :=
          Finset.mem_image.2 ⟨e.u, List.mem_toFinset.2 heu, rfl⟩
        have hrbimg : rootF V p e.v ∈ V.toFinset.image (rootF V p) :=
          Finset.mem_image.2 ⟨e.v, List.mem_toFinset.2 hev, rfl⟩
        have hrane : rootF V p e.u ≠ rootF V p e.v := by
          intro he
          exact hnc ((hsame e.u e.v).1
            ((sameSet_iff_roots (rootF_hasRoot hwfp hV e.u)
              (rootF_hasRoot hwfp hV e.v)).2 he))
        rw [himg, image_collapse_card hraimg hrbimg hrane, List.length_append]
        have hpos : 0 < (V.toFinset.image (rootF V p)).card :=
          Finset.card_pos.2 ⟨_, hrbimg⟩
        simp only [List.length_singleton]
        omega
    · -- skip: the edge closes a cycle
      have hbf : (union V.length p e.u e.v).1 = false := by
        cases hres : (union V.length p e.u e.v).1
        · rfl
        · exact absurd hres hb
      have hconn : conn acc.toFinset e.u e.v := by
        by_contra hnc
        exact hb (hbool.2 hnc)
      have hstep : kruskalFold V.length p (e :: rest') acc total =
          kruskalFold V.length (union V.length p e.u e.v).2 rest' acc total := by
        simp only [kruskalFold, hbf]
        rfl
      rw [hstep]
      apply ih (union V.length p e.u e.v).2 acc total
      · exact hwf'
      · exact hfalse_keep hbf
      · exact hsubE
      · exact hacy
      · exact hnd
      · exact hinc
      · exact htot
      · exact hmin
      · intro f hf
        exact hrest f (List.mem_cons.2 (Or.inr hf))
      · exact htail
      · intro f hf
        rcases hremain f hf with h | h | h
        · exact Or.inl h
        · rcases List.mem_cons.1 (List.mem_toFinset.1 h) with h2 | h2
          · subst h2
            exact Or.inl hconn
          · exact Or.inr (Or.inl (List.mem_toFinset.2 h2))
        · rcases List.mem_cons.1 (List.mem_toFinset.1 h) with h2 | h2
          · have hfe : f = flipE e := by rw [← flipE_flipE f, h2]
            refine Or.inl ?_
            rw [hfe]
            exact conn_symm hconn
          · exact Or.inr (Or.inr (List.mem_toFinset.2 h2))
      · have himg : V.toFinset.image (rootF V (union V.length p e.u e.v).2) =
            V.toFinset.image (rootF V p) := by
          apply Finset.image_congr
          intro x _
          exact hfalse_root hbf x
        rw [himg]
        exact hcount

/-- Every finite edge set admits a spanning forest. -/
theorem exists_good (E : Finset CEdge) : ∃ S, Good E S := by
  induction E using Finset.induction_on with
  | empty =>
    exact ⟨∅, Finset.Subset.refl _,
      fun e he => absurd he (Finset.not_mem_empty e), fun a b => Iff.rfl⟩
  | @insert f E' hfE ih =>
    obtain ⟨S', hsub, hacy, hspan⟩ := ih
    by_cases hc : conn E' f.u f.v
    · refine ⟨S', hsub.trans (Finset.subset_insert f E'), hacy, ?_⟩
      intro a b
      rw [hspan a b]
      exact ⟨fun h => conn_mono (Finset.subset_insert f E') h,
        fun h => conn_insert_of_conn hc h⟩
    · have hncS : ¬ conn S' f.u f.v := fun h => hc ((hspan f.u f.v).1 h)
      refine ⟨insert f S', Finset.insert_subset_insert f hsub,
        acyclic_insert hacy hncS, ?_⟩
      intro a b
      constructor
      · intro h
        exact conn_mono (Finset.insert_subset_insert f hsub) h
      · intro h
        refine conn_of_edges_conn ?_ h
        intro gE hg
        rcases Finset.mem_insert.1 hg with rfl | hg
        · exact conn_single (Finset.mem_insert_self gE _)
        · exact conn_mono (Finset.subset_insert f S')
            ((hspan gE.u gE.v).2 (conn_single hg))

theorem find_id : ∀ (fuel : Nat) (n : String),
    find fuel (fun m => m) n = (n, fun m => m)
  | 0, n => rfl
  | fuel + 1, n => by simp [find]

/-- The positions of `kruskal_mst` internals. -/
theorem kruskal_mst_eq (g : CampusNetwork) :
    g.kruskal_mst =
      ({ g with mst := some ⟨g.nodes.map fun n => (n, bpos g n),
          (kruskalFold g.nodes.length (fun n => n)
            ((nxEdges g).insertionSort wleR) [] 0).1⟩ },
       ⟨g.nodes.map fun n => (n, bpos g n),
        (kruskalFold g.nodes.length (fun n => n)
          ((nxEdges g).insertionSort wleR) [] 0).1⟩) := rfl

/-- All the facts the claims need about `kruskal_mst` on a well-formed
graph: its selected edges are an acyclic, duplicate-free, incrementally
independent subset of the graph's edges, of the weight the code accumulates,
spanning every component, of minimum weight among all spanning forests, and
numbering `|V| -` (number of classes of any classifier of graph
connectivity). -/
theorem kruskal_core {g : CampusNetwork} (hwf : Wf g) :
    (g.kruskal_mst).2.redges.toFinset ⊆ symCl g.edges ∧
    Acyclic (g.kruskal_mst).2.redges.toFinset ∧
    (g.kruskal_mst).2.redges.Nodup ∧
    IncAcyclic (g.kruskal_mst).2.redges ∧
    (∀ x y, conn (g.kruskal_mst).2.redges.toFinset x y ↔ conn (symCl g.edges) x y) ∧
    (∀ S, Good (symCl g.edges) S →
      weightF (g.kruskal_mst).2.redges.toFinset ≤ weightF S) ∧
    (∀ rep : String → String,
      (∀ x ∈ g.nodes, ∀ y ∈ g.nodes, (rep x = rep y ↔ conn (symCl g.edges) x y)) →
      (g.kruskal_mst).2.redges.length + (g.nodes.toFinset.image rep).card =
        g.nodes.length) ∧
    (g.kruskal_mst).2.total = weightF (g.kruskal_mst).2.redges.toFinset := by
  obtain ⟨hnd, hends, hsimple, hbk, hbn⟩ := hwf
  set E := symCl g.edges with hE
  set sorted := (nxEdges g).insertionSort wleR with hsorted
  have hperm : ∀ f, f ∈ sorted ↔ f ∈ nxEdges g := by
    intro f
    exact (List.perm_insertionSort wleR (nxEdges g)).mem_iff
  have hmin0 : ∃ T, Good E T ∧ (∀ S, Good E S → weightF T ≤ weightF S) ∧
      (List.toFinset []) ⊆ T := by
    obtain ⟨T, hTg, hTm⟩ := exists_min_good (exists_good E)
    exact ⟨T, hTg, hTm, by simp⟩
  have hspec := kruskalFold_spec hnd sorted (fun n => n) [] 0
    (WFP_id _)
    (fun x y => by
      rw [sameSet_id]
      simp only [List.toFinset_nil]
      exact conn_empty_iff.symm)
    (by simp)
    (fun e he => absurd he (by simp))
    List.nodup_nil
    trivial
    (by simp [weightF])
    hmin0
    (by
      intro f hf
      have hfn : f ∈ nxEdges g := (hperm f).1 hf
      have hfE : f ∈ E := nxEdges_sound hfn
      rcases mem_symCl.1 hfE with h | h
      · obtain ⟨h1, h2⟩ := hends f h
        exact ⟨h1, h2, hfE⟩
      · obtain ⟨h1, h2⟩ := hends (flipE f) h
        exact ⟨h2, h1, hfE⟩)
    (by
      have hs := List.sorted_insertionSort wleR (nxEdges g)
      exact hs)
    (by
      intro f hf
      rcases mem_symCl.1 hf with h | h
      · obtain ⟨h1, h2⟩ := hends f h
        rcases nxEdges_cover h h1 h2 with h3 | h3
        · exact Or.inr (Or.inl (List.mem_toFinset.2 ((hperm f).2 h3)))
        · exact Or.inr (Or.inr (List.mem_toFinset.2 ((hperm (flipE f)).2 h3)))
      · obtain ⟨h1, h2⟩ := hends (flipE f) h
        rcases nxEdges_cover h h1 h2 with h3 | h3
        · exact Or.inr (Or.inr (List.mem_toFinset.2 ((hperm (flipE f)).2 h3)))
        · rw [flipE_flipE] at h3
          exact Or.inr (Or.inl (List.mem_toFinset.2 ((hperm f).2 h3))))
    (by
      have hid : ∀ n, rootF g.nodes (fun m => m) n = n := by
        intro n
        rw [rootF, find_id]
      have himg : g.nodes.toFinset.image (rootF g.nodes (fun m => m)) =
          g.nodes.toFinset := by
        apply Finset.image_congr (g := id) (fun x _ => hid x) |>.trans
        exact Finset.image_id
      rw [himg, List.toFinset_card_of_nodup hnd]
      simp)
  obtain ⟨h1, h2, h3, h4, h5, h6, h7, h8⟩ := hspec
  have hred : (g.kruskal_mst).2.redges =
      (kruskalFold g.nodes.length (fun n => n) sorted [] 0).1 := rfl
  have htot : (g.kruskal_mst).2.total =
      ((kruskalFold g.nodes.length (fun n => n) sorted [] 0).1.map
        (fun e => e.w)).sum := rfl
  refine ⟨by rw [hred]; exact h1, by rw [hred]; exact h2, by rw [hred]; exact h3,
    by rw [hred]; exact h4, by rw [hred]; exact h6, by rw [hred]; exact h7,
    by rw [hred]; exact h8, ?_⟩
  rw [hred, htot]
  exact (List.sum_toFinset (fun e => e.w) h3).symm

/-! ## Correctness of the reachability fixpoint -/

theorem expandR_superset {es : List CEdge} {S : List String} :
    ∀ x ∈ S, x ∈ expandR es S := by
  intro x hx
  exact List.mem_append_left _ hx

theorem expandR_nodup {es : List CEdge} {S : List String} (h : S.Nodup) :
    (expandR es S).Nodup := by
  rw [expandR, List.nodup_append]
  refine ⟨h, List.nodup_dedup _, ?_⟩
  intro x hx hx2
  rw [List.mem_dedup, List.mem_filterMap] at hx2
  obtain ⟨pr, -, hpick⟩ := hx2
  split_ifs at hpick with hc
  · obtain rfl : pr.2 = x := by simpa using hpick
    exact hc.2 hx

theorem expandR_mem_sound {es : List CEdge} {S : List String} {x : String}
    (hx : x ∈ expandR es S) :
    x ∈ S ∨ (x ∈ touchedNodes es ∧ ∃ a ∈ S, touches es.toFinset a x) := by
  rcases List.mem_append.1 hx with h | h
  · exact Or.inl h
  · right
    rw [List.mem_dedup, List.mem_filterMap] at h
    obtain ⟨pr, hpr, hpick⟩ := h
    split_ifs at hpick with hc
    · obtain rfl : pr.2 = x := by simpa using hpick
      rw [List.mem_flatMap] at hpr
      obtain ⟨e, he, hpe⟩ := hpr
      have htch : touches es.toFinset pr.1 pr.2 := by
        rcases (by simpa using hpe : pr = (e.u, e.v) ∨ pr = (e.v, e.u)) with h2 | h2
        · exact ⟨e, List.mem_toFinset.2 he, Or.inl ⟨by rw [h2], by rw [h2]⟩⟩
        · exact ⟨e, List.mem_toFinset.2 he, Or.inr ⟨by rw [h2], by rw [h2]⟩⟩
      refine ⟨?_, pr.1, hc.1, htch⟩
      rw [touchedNodes, List.mem_flatMap]
      rcases (by simpa using hpe : pr = (e.u, e.v) ∨ pr = (e.v, e.u)) with h2 | h2
      · exact ⟨e, he, by rw [h2]; simp⟩
      · exact ⟨e, he, by rw [h2]; simp⟩

theorem expandR_conn {es : List CEdge} {S : List String} {n : String}
    (h : ∀ x ∈ S, conn es.toFinset n x) :
    ∀ x ∈ expandR es S, conn es.toFinset n x := by
  intro x hx
  rcases expandR_mem_sound hx with h1 | ⟨-, a, ha, htch⟩
  · exact h x h1
  · exact (h a ha).tail htch

theorem reachAux_superset {es : List CEdge} :
    ∀ (fuel : Nat) (S : List String), ∀ x ∈ S, x ∈ reachAux es fuel S := by
  intro fuel
  induction fuel with
  | zero => intro S x hx; exact hx
  | succ fuel ih =>
    intro S x hx
    exact ih (expandR es S) x (expandR_superset x hx)

theorem reachAux_conn {es : List CEdge} {n : String} :
    ∀ (fuel : Nat) (S : List String), (∀ x ∈ S, conn es.toFinset n x) →
    ∀ x ∈ reachAux es fuel S, conn es.toFinset n x := by
  intro fuel
  induction fuel with
  | zero => intro S h x hx; exact h x hx
  | succ fuel ih =>
    intro S h x hx
    exact ih (expandR es S) (expandR_conn h) x hx

theorem reachAux_fix {es : List CEdge} :
    ∀ (fuel : Nat) (S : List String), expandR es S = S →
    reachAux es fuel S = S := by
  intro fuel
  induction fuel with
  | zero => intro S _; rfl
  | succ fuel ih =>
    intro S h
    show reachAux es fuel (expandR es S) = S
    rw [h]
    exact ih S h

theorem length_le_of_nodup_subset {S U : List String} (hnd : S.Nodup)
    (hsub : ∀ x ∈ S, x ∈ U) : S.length ≤ U.dedup.length := by
  rw [← List.toFinset_card_of_nodup hnd, ← List.card_toFinset]
  apply Finset.card_le_card
  intro x hx
  exact List.mem_toFinset.2 (hsub x (List.mem_toFinset.1 hx))

theorem expandR_universe {es : List CEdge} {S : List String} {a : String}
    (hu : ∀ x ∈ S, x = a ∨ x ∈ touchedNodes es) :
    ∀ x ∈ expandR es S, x = a ∨ x ∈ touchedNodes es := by
  intro x hx
  rcases expandR_mem_sound hx with h | ⟨h, -⟩
  · exact hu x h
  · exact Or.inr h

theorem expandR_grow {es : List CEdge} {S : List String}
    (hne : expandR es S ≠ S) : S.length < (expandR es S).length := by
  rw [expandR] at hne ⊢
  rcases hl : ((es.flatMap fun e => [(e.u, e.v), (e.v, e.u)]).filterMap
      fun pr => if pr.1 ∈ S ∧ pr.2 ∉ S then some pr.2 else none).dedup with _ | ⟨y, ys⟩
  · rw [hl] at hne
    simp at hne
  · rw [hl, List.length_append]
    simp only [List.length_cons]
    omega

theorem reachAux_fixpoint {es : List CEdge} {a : String} :
    ∀ (fuel : Nat) (S : List String), S.Nodup →
    (∀ x ∈ S, x = a ∨ x ∈ touchedNodes es) →
    (touchedNodes es).dedup.length + 1 ≤ fuel + S.length →
    expandR es (reachAux es fuel S) = reachAux es fuel S := by
  intro fuel
  induction fuel with
  | zero =>
    intro S hnd hu hlen
    show expandR es S = S
    by_contra hne
    have hgrow : S.length < (expandR es S).length := expandR_grow hne
    have hbound : (expandR es S).length ≤ ((a :: touchedNodes es).dedup).length := by
      apply length_le_of_nodup_subset (expandR_nodup hnd)
      intro x hx
      rcases expandR_universe hu x hx with h | h
      · exact h ▸ List.mem_cons_self a _
      · exact List.mem_cons.2 (Or.inr h)
    have hdedup : ((a :: touchedNodes es).dedup).length ≤
        (touchedNodes es).dedup.length + 1 := by
      by_cases ha : a ∈ touchedNodes es
      · rw [List.dedup_cons_of_mem ha]
        omega
      · rw [List.dedup_cons_of_not_mem ha]
        simp
    omega
  | succ fuel ih =>
    intro S hnd hu hlen
    show expandR es (reachAux es fuel (expandR es S)) = reachAux es fuel (expandR es S)
    by_cases hfix : expandR es S = S
    · rw [hfix, reachAux_fix fuel S hfix, hfix]
    · have hgrow : S.length < (expandR es S).length := expandR_grow hfix
      exact ih (expandR es S) (expandR_nodup hnd) (expandR_universe hu)
        (by omega)

/-- `reachB` decides connectivity along the edge list. -/
theorem reachB_iff_conn {es : List CEdge} {a b : String} :
    reachB es a b = true ↔ conn es.toFinset a b := by
  constructor
  · intro h
    rw [reachB] at h
    refine reachAux_conn _ [a] ?_ b (by simpa using h)
    intro x hx
    rw [List.mem_singleton] at hx
    rw [hx]
    exact conn_rfl
  · intro h
    rw [reachB, decide_eq_true_eq]
    have hfix : expandR es (reachAux es ((touchedNodes es).dedup.length + 1) [a]) =
        reachAux es ((touchedNodes es).dedup.length + 1) [a] := by
      apply reachAux_fixpoint
      · exact List.nodup_singleton a
      · intro x hx
        rw [List.mem_singleton] at hx
        exact Or.inl hx
      · simp
    set R := reachAux es ((touchedNodes es).dedup.length + 1) [a] with hR
    have hstart : a ∈ R := reachAux_superset _ [a] a (List.mem_singleton.2 rfl)
    have hclosed : ∀ x ∈ R, ∀ y, touches es.toFinset x y → y ∈ R := by
      intro x hx y htch
      by_cases hy : y ∈ R
      · exact hy
      · exfalso
        obtain ⟨e, he, hends⟩ := htch
        have hpair : (x, y) ∈ es.flatMap fun e => [(e.u, e.v), (e.v, e.u)] := by
          rw [List.mem_flatMap]
          refine ⟨e, List.mem_toFinset.1 he, ?_⟩
          rcases hends with ⟨h1, h2⟩ | ⟨h1, h2⟩
          · rw [← h1, ← h2]; simp
          · rw [← h1, ← h2]; simp
        have hyadd : y ∈ expandR es R := by
          rw [expandR]
          apply List.mem_append_right
          rw [List.mem_dedup, List.mem_filterMap]
          exact ⟨(x, y), hpair, by rw [if_pos ⟨hx, hy⟩]⟩
        rw [hfix] at hyadd
        exact hy hyadd
    clear hfix hR
    induction h with
    | refl => exact hstart
    | tail hxc hstep ih => exact hclosed _ ih _ hstep

/-- `connectedB` decides whether all nodes are pairwise connected. -/
theorem connectedB_iff {g : CampusNetwork} :
    connectedB g = true ↔
      ∀ a ∈ g.nodes, ∀ b ∈ g.nodes, conn (symCl g.edges) a b := by
  rw [connectedB, List.all_eq_true]
  constructor
  · intro h a ha b hb
    have h2 := List.all_eq_true.1 (h a ha) b hb
    rw [conn_symCl_iff]
    exact reachB_iff_conn.1 h2
  · intro h a ha
    rw [List.all_eq_true]
    intro b hb
    exact reachB_iff_conn.2 (conn_symCl_iff.1 (h a ha b hb))

theorem reachB_refl {es : List CEdge} (a : String) : reachB es a a = true :=
  reachB_iff_conn.2 conn_rfl

theorem find?_congr {p q : String → Bool} :
    ∀ l : List String, (∀ x ∈ l, p x = q x) → l.find? p = l.find? q := by
  intro l
  induction l with
  | nil => intro _; rfl
  | cons x rest ih =>
    intro h
    rw [List.find?_cons, List.find?_cons, h x (List.mem_cons_self x rest)]
    cases q x
    · exact ih fun y hy => h y (List.mem_cons.2 (Or.inr hy))
    · rfl

theorem crep_spec {g : CampusNetwork} {n : String} (hn : n ∈ g.nodes) :
    crep g n ∈ g.nodes ∧ conn (symCl g.edges) (crep g n) n := by
  rw [crep]
  have hfind : (g.nodes.find? fun m => reachB g.edges m n).isSome := by
    rw [List.find?_isSome]
    exact ⟨n, hn, reachB_refl n⟩
  obtain ⟨c, hc⟩ := Option.isSome_iff_exists.1 hfind
  rw [hc]
  simp only [Option.getD_some]
  have hp0 := List.find?_some hc
  have hp : reachB g.edges c n = true := hp0
  constructor
  · exact List.mem_of_find?_eq_some hc
  · rw [conn_symCl_iff]
    exact reachB_iff_conn.1 hp

/-- The first-node representative classifies the connected components. -/
theorem crep_classify {g : CampusNetwork} :
    ∀ x ∈ g.nodes, ∀ y ∈ g.nodes,
      (crep g x = crep g y ↔ conn (symCl g.edges) x y) := by
  intro x hx y hy
  constructor
  · intro h
    obtain ⟨-, hcx⟩ := crep_spec hx
    obtain ⟨-, hcy⟩ := crep_spec hy
    refine conn_trans (conn_symm hcx) ?_
    rw [h]
    exact hcy
  · intro h
    have hpq : (g.nodes.find? fun m => reachB g.edges m x) =
        (g.nodes.find? fun m => reachB g.edges m y) := by
      apply find?_congr
      intro m _
      rw [Bool.eq_iff_iff, reachB_iff_conn, reachB_iff_conn]
      have hc : conn g.edges.toFinset x y := conn_symCl_iff.1 h
      exact ⟨fun h2 => conn_trans h2 hc, fun h2 => conn_trans h2 (conn_symm hc)⟩
    have hfy : (g.nodes.find? fun m => reachB g.edges m y).isSome := by
      rw [List.find?_isSome]
      exact ⟨y, hy, reachB_refl y⟩
    obtain ⟨c, hc⟩ := Option.isSome_iff_exists.1 hfy
    rw [crep, crep, hpq, hc]
    rfl

/-! ## Prim's loop: invariant and main lemma -/

theorem symCl_flip_closed {l : List CEdge} {e : CEdge} (h : e ∈ symCl l) :
    flipE e ∈ symCl l := by
  rcases mem_symCl.1 h with h1 | h1
  · exact mem_symCl.2 (Or.inr (by rwa [flipE_flipE]))
  · exact mem_symCl.2 (Or.inl h1)

theorem symCl_ends {g : CampusNetwork} (hwf : Wf g) {f : CEdge}
    (hf : f ∈ symCl g.edges) : f.u ∈ g.nodes ∧ f.v ∈ g.nodes := by
  rcases mem_symCl.1 hf with h | h
  · exact hwf.2.1 f h
  · obtain ⟨h1, h2⟩ := hwf.2.1 (flipE f) h
    exact ⟨h2, h1⟩

theorem nbrs_to_symCl {es : List CEdge} {c y : String} {w : Int}
    (h : (y, w) ∈ nbrsOf es c) : (⟨c, y, w⟩ : CEdge) ∈ symCl es := by
  rcases nbrsOf_sound h with h1 | h1
  · exact mem_symCl.2 (Or.inl h1)
  · exact mem_symCl.2 (Or.inr h1)

/-- Connectivity along edges contained in a vertex set stays in that set. -/
theorem conn_stay {A : Finset CEdge} {vs : List String}
    (hA : ∀ f ∈ A, f.u ∈ vs ∧ f.v ∈ vs) {x y : String}
    (h : conn A x y) (hx : x ∈ vs) : y ∈ vs := by
  induction h with
  | refl => exact hx
  | tail hxc hstep ih =>
    obtain ⟨f, hf, hends⟩ := hstep
    rcases hends with ⟨h1, h2⟩ | ⟨h1, h2⟩
    · exact h2 ▸ (hA f hf).2
    · exact h1 ▸ (hA f hf).1

theorem conn_right_touched {S : Finset CEdge} {x y : String} (h : conn S x y) :
    x = y ∨ ∃ e ∈ S, e.u = y ∨ e.v = y := by
  induction h with
  | refl => exact Or.inl rfl
  | tail hxc hstep ih =>
    obtain ⟨f, hf, hends⟩ := hstep
    rcases hends with ⟨h1, h2⟩ | ⟨h1, h2⟩
    · exact Or.inr ⟨f, hf, Or.inr h2⟩
    · exact Or.inr ⟨f, hf, Or.inl h1⟩

/-- Loop invariant for `primLoop`. -/
def InvP (g : CampusNetwork) (start : String) (pq : List PEntry)
    (visited : List String) (accN : List (String × Pos)) (accE : List CEdge)
    (total : Int) : Prop :=
  visited.Nodup ∧
  (∀ x ∈ visited, x ∈ g.nodes) ∧
  accN = visited.map (fun n => (n, bpos g n)) ∧
  (∀ f ∈ accE, f.u ∈ visited ∧ f.v ∈ visited) ∧
  accE.toFinset ⊆ symCl g.edges ∧
  accE.Nodup ∧
  IncAcyclic accE ∧
  Acyclic accE.toFinset ∧
  total = weightF accE.toFinset ∧
  (∀ x ∈ visited, ∀ y ∈ visited, conn accE.toFinset x y) ∧
  (∀ ent ∈ pq, ent.pnode ∈ g.nodes ∧
    (ent.pprev = none → ent.pnode = start ∧ ent.pw = 0) ∧
    (∀ pv, ent.pprev = some pv → pv ∈ visited ∧
      (⟨pv, ent.pnode, ent.pw⟩ : CEdge) ∈ symCl g.edges)) ∧
  (∀ x y w', x ∈ visited → y ∉ visited → (⟨x, y, w'⟩ : CEdge) ∈ symCl g.edges →
    (⟨w', y, some x⟩ : PEntry) ∈ pq) ∧
  (∃ T, Good (symCl g.edges) T ∧
    (∀ S, Good (symCl g.edges) S → weightF T ≤ weightF S) ∧ accE.toFinset ⊆ T) ∧
  (∀ x ∈ visited, conn (symCl g.edges) start x) ∧
  ((visited = [] ∧ pq = [⟨0, start, none⟩] ∧ accE = [] ∧ accN = [] ∧ total = 0) ∨
    start ∈ visited)

theorem primLoop_nil (g : CampusNetwork) (visited : List String)
    (accN : List (String × Pos)) (accE : List CEdge) (total : Int) :
    primLoop g [] visited accN accE total = (accN, accE, total) := by
  rw [primLoop_eq]

theorem primLoop_full (g : CampusNetwork) (e0 : PEntry) (rest0 : List PEntry)
    (visited : List String) (accN : List (String × Pos)) (accE : List CEdge)
    (total : Int) (hv : ¬ visited.length < g.nodes.length) :
    primLoop g (e0 :: rest0) visited accN accE total = (accN, accE, total) := by
  rw [primLoop_eq]
  show (if visited.length < g.nodes.length then _ else _) = _
  rw [if_neg hv]

theorem primLoop_discard (g : CampusNetwork) (e0 : PEntry) (rest0 : List PEntry)
    (visited : List String) (accN : List (String × Pos)) (accE : List CEdge)
    (total : Int) (hv : visited.length < g.nodes.length)
    (hmem : (pqMin e0 rest0).pnode ∈ visited) :
    primLoop g (e0 :: rest0) visited accN accE total =
      primLoop g ((e0 :: rest0).erase (pqMin e0 rest0)) visited accN accE total := by
  rw [primLoop_eq]
  show (if visited.length < g.nodes.length then _ else _) = _
  rw [if_pos hv]
  show (if (pqMin e0 rest0).pnode ∈ visited then _ else _) = _
  rw [if_pos hmem]

theorem primLoop_commit_none (g : CampusNetwork) (e0 : PEntry) (rest0 : List PEntry)
    (visited : List String) (accN : List (String × Pos)) (accE : List CEdge)
    (total : Int) (hv : visited.length < g.nodes.length)
    (hni : (pqMin e0 rest0).pnode ∉ visited)
    (hprev : (pqMin e0 rest0).pprev = none) :
    primLoop g (e0 :: rest0) visited accN accE total =
      primLoop g ((e0 :: rest0).erase (pqMin e0 rest0) ++
          (((nbrsOf g.edges (pqMin e0 rest0).pnode).filter
            fun pr => pr.1 ∉ visited ++ [(pqMin e0 rest0).pnode]).map
            fun pr => ⟨pr.2, pr.1, some (pqMin e0 rest0).pnode⟩))
        (visited ++ [(pqMin e0 rest0).pnode])
        (accN ++ [((pqMin e0 rest0).pnode, bpos g (pqMin e0 rest0).pnode)])
        accE total := by
  rw [primLoop_eq]
  show (if visited.length < g.nodes.length then _ else _) = _
  rw [if_pos hv]
  show (if (pqMin e0 rest0).pnode ∈ visited then _ else _) = _
  rw [if_neg hni]
  show (match (pqMin e0 rest0).pprev with
    | none => _
    | some pv => _) = _
  rw [hprev]

theorem primLoop_commit_some (g : CampusNetwork) (e0 : PEntry) (rest0 : List PEntry)
    (visited : List String) (accN : List (String × Pos)) (accE : List CEdge)
    (total : Int) (pv : String) (hv : visited.length < g.nodes.length)
    (hni : (pqMin e0 rest0).pnode ∉ visited)
    (hprev : (pqMin e0 rest0).pprev = some pv) :
    primLoop g (e0 :: rest0) visited accN accE total =
      primLoop g ((e0 :: rest0).erase (pqMin e0 rest0) ++
          (((nbrsOf g.edges (pqMin e0 rest0).pnode).filter
            fun pr => pr.1 ∉ visited ++ [(pqMin e0 rest0).pnode]).map
            fun pr => ⟨pr.2, pr.1, some (pqMin e0 rest0).pnode⟩))
        (visited ++ [(pqMin e0 rest0).pnode])
        (accN ++ [((pqMin e0 rest0).pnode, bpos g (pqMin e0 rest0).pnode)])
        (accE ++ [⟨pv, (pqMin e0 rest0).pnode, (pqMin e0 rest0).pw⟩])
        (total + (pqMin e0 rest0).pw) := by
  rw [primLoop_eq]
  show (if visited.length < g.nodes.length then _ else _) = _
  rw [if_pos hv]
  show (if (pqMin e0 rest0).pnode ∈ visited then _ else _) = _
  rw [if_neg hni]
  show (match (pqMin e0 rest0).pprev with
    | none => _
    | some pv => _) = _
  rw [hprev]



/-- What holds of `primLoop`'s final state: the committed nodes are exactly
the connected component of the start node, and the committed edges form a
minimum spanning tree of it. -/
def ConclP (g : CampusNetwork) (start : String)
    (out : List (String × Pos) × List CEdge × Int) : Prop :=
  ∃ visited' : List String,
    out.1 = visited'.map (fun n => (n, bpos g n)) ∧
    visited'.Nodup ∧
    (∀ x, x ∈ visited' ↔ conn (symCl g.edges) start x) ∧
    out.2.1.toFinset ⊆ symCl g.edges ∧
    out.2.1.Nodup ∧
    IncAcyclic out.2.1 ∧
    Acyclic out.2.1.toFinset ∧
    out.2.2 = weightF out.2.1.toFinset ∧
    (∀ f ∈ out.2.1, f.u ∈ visited' ∧ f.v ∈ visited') ∧
    (∀ x ∈ visited', ∀ y ∈ visited', conn out.2.1.toFinset x y) ∧
    (∃ T, Good (symCl g.edges) T ∧
      (∀ S, Good (symCl g.edges) S → weightF T ≤ weightF S) ∧ out.2.1.toFinset ⊆ T)

theorem primLoop_spec {g : CampusNetwork} (hwf : Wf g) {start : String}
    {tl : List String} (hnodes : g.nodes = start :: tl) :
    ∀ pq visited accN accE total,
      InvP g start pq visited accN accE total →
      ConclP g start (primLoop g pq visited accN accE total) := by
  intro pq visited accN accE total hInv
  revert hInv
  induction pq, visited, accN, accE, total using primLoop.induct g with
  | case1 visited accN accE total =>
    intro hInv
    obtain ⟨h1, h2, h3, h4, h5, h6, h7, h8, h9, h10, h11, h12, h13, h14, h15⟩ := hInv
    have hstart_vis : start ∈ visited := by
      rcases h15 with ⟨-, hpq, -⟩ | h
      · exact absurd hpq (by simp)
      · exact h
    have hclose : ∀ y, conn (symCl g.edges) start y → y ∈ visited := by
      intro y hy
      induction hy with
      | refl => exact hstart_vis
      | @tail b c hxb hstep ihc =>
        by_cases hcv : c ∈ visited
        · exact hcv
        · exfalso
          obtain ⟨f, hf, hends⟩ := hstep
          have hedge : (⟨b, c, f.w⟩ : CEdge) ∈ symCl g.edges := by
            rcases hends with ⟨hfu, hfv⟩ | ⟨hfu, hfv⟩
            · have hfe : f = ⟨b, c, f.w⟩ := by
                cases f
                simp_all
              exact hfe ▸ hf
            · have hfe : flipE f = ⟨b, c, f.w⟩ := by
                cases f
                simp_all [flipE]
              exact hfe ▸ symCl_flip_closed hf
          exact absurd (h12 b c f.w ihc hcv hedge) (by simp)
    rw [primLoop_nil]
    exact ⟨visited, h3, h1, fun x => ⟨h14 x, hclose x⟩, h5, h6, h7, h8, h9, h4, h10, h13⟩
  | case5 visited accN accE total e0 rest0 hv5 =>
    intro hInv
    obtain ⟨h1, h2, h3, h4, h5, h6, h7, h8, h9, h10, h11, h12, h13, h14, h15⟩ := hInv
    have hall : ∀ x ∈ g.nodes, x ∈ visited := by
      have hsub : visited.toFinset ⊆ g.nodes.toFinset := by
        intro x hx
        exact List.mem_toFinset.2 (h2 x (List.mem_toFinset.1 hx))
      have hcard : g.nodes.toFinset.card ≤ visited.toFinset.card := by
        rw [List.toFinset_card_of_nodup h1, List.toFinset_card_of_nodup hwf.1]
        omega
      have heq := Finset.eq_of_subset_of_card_le hsub hcard
      intro x hx
      exact List.mem_toFinset.1 (heq ▸ List.mem_toFinset.2 hx)
    have hstart_vis : start ∈ visited := hall start (by rw [hnodes]; simp)
    have hclose : ∀ y, conn (symCl g.edges) start y → y ∈ visited := by
      intro y hy
      rcases conn_right_touched hy with rfl | ⟨f, hf, hends⟩
      · exact hstart_vis
      · rcases hends with h | h
        · exact hall y (h ▸ (symCl_ends hwf hf).1)
        · exact hall y (h ▸ (symCl_ends hwf hf).2)
    rw [primLoop_full g e0 rest0 visited accN accE total hv5]
    exact ⟨visited, h3, h1, fun x => ⟨h14 x, hclose x⟩, h5, h6, h7, h8, h9, h4, h10, h13⟩
  | case2 visited accN accE total e0 rest0 hv m pq' hmem ih =>
    intro hInv
    obtain ⟨h1, h2, h3, h4, h5, h6, h7, h8, h9, h10, h11, h12, h13, h14, h15⟩ := hInv
    rw [primLoop_discard g e0 rest0 visited accN accE total hv hmem]
    apply ih
    refine ⟨h1, h2, h3, h4, h5, h6, h7, h8, h9, h10, ?_, ?_, h13, h14, ?_⟩
    · intro ent hent
      exact h11 ent (List.mem_of_mem_erase hent)
    · intro x y w' hx hy hedge
      have hentry := h12 x y w' hx hy hedge
      have hne : (⟨w', y, some x⟩ : PEntry) ≠ pqMin e0 rest0 := by
        intro he
        apply hy
        have hyp : y = (pqMin e0 rest0).pnode := by rw [← he]
        rw [hyp]
        exact hmem
      exact (List.mem_erase_of_ne hne).2 hentry
    · right
      rcases h15 with ⟨hve, -⟩ | h
      · rw [hve] at hmem
        exact absurd hmem (by simp)
      · exact h
  | case3 visited accN accE total e0 rest0 hv m pq' hni visited' accN' pushes hprev ih =>
    intro hInv
    obtain ⟨h1, h2, h3, h4, h5, h6, h7, h8, h9, h10, h11, h12, h13, h14, h15⟩ := hInv
    have hmpq : pqMin e0 rest0 ∈ e0 :: rest0 := pqMin_mem e0 rest0
    obtain ⟨hpstart, hpw0⟩ := (h11 _ hmpq).2.1 hprev
    have hvempty : visited = [] := by
      rcases h15 with ⟨hve, -⟩ | hst
      · exact hve
      · exact absurd (hpstart ▸ hst) hni
    have hstartV : start ∈ g.nodes := by rw [hnodes]; exact List.mem_cons_self _ _
    rw [primLoop_commit_none g e0 rest0 visited accN accE total hv hni hprev]
    apply ih
    refine ⟨?_, ?_, ?_, ?_, h5, h6, h7, h8, h9, ?_, ?_, ?_, h13, ?_, ?_⟩
    · show (visited ++ [(pqMin e0 rest0).pnode]).Nodup
      rw [hvempty]
      simp
    · show ∀ x ∈ visited ++ [(pqMin e0 rest0).pnode], x ∈ g.nodes
      intro x hx
      rcases List.mem_append.1 hx with h | h
      · exact h2 x h
      · rw [List.mem_singleton] at h
        rw [h, hpstart]
        exact hstartV
    · show accN ++ [((pqMin e0 rest0).pnode, bpos g (pqMin e0 rest0).pnode)] =
        (visited ++ [(pqMin e0 rest0).pnode]).map (fun n => (n, bpos g n))
      rw [h3, List.map_append]
      rfl
    · show ∀ f ∈ accE, f.u ∈ visited ++ [(pqMin e0 rest0).pnode] ∧
        f.v ∈ visited ++ [(pqMin e0 rest0).pnode]
      intro f hf
      exact ⟨List.mem_append_left _ (h4 f hf).1, List.mem_append_left _ (h4 f hf).2⟩
    · show ∀ x ∈ visited ++ [(pqMin e0 rest0).pnode],
        ∀ y ∈ visited ++ [(pqMin e0 rest0).pnode], conn accE.toFinset x y
      intro x hx y hy
      rw [hvempty] at hx hy
      simp only [List.nil_append, List.mem_singleton] at hx hy
      rw [hx, hy]
      exact conn_rfl
    · show ∀ ent ∈ (e0 :: rest0).erase (pqMin e0 rest0) ++
        (((nbrsOf g.edges (pqMin e0 rest0).pnode).filter
          fun pr => pr.1 ∉ visited ++ [(pqMin e0 rest0).pnode]).map
          fun pr => ⟨pr.2, pr.1, some (pqMin e0 rest0).pnode⟩), _
      intro ent hent
      rcases List.mem_append.1 hent with h | h
      · have hold := h11 ent (List.mem_of_mem_erase h)
        refine ⟨hold.1, hold.2.1, ?_⟩
        intro pv' hpv'
        obtain ⟨hb1, hb2⟩ := hold.2.2 pv' hpv'
        exact ⟨List.mem_append_left _ hb1, hb2⟩
      · rw [List.mem_map] at h
        obtain ⟨pr, hpr, rfl⟩ := h
        rw [List.mem_filter] at hpr
        have hsym : (⟨(pqMin e0 rest0).pnode, pr.1, pr.2⟩ : CEdge) ∈ symCl g.edges :=
          nbrs_to_symCl (by simpa using hpr.1)
        refine ⟨(symCl_ends hwf hsym).2, ?_, ?_⟩
        · intro hnone
          simp at hnone
        · intro pv' hpv'
          obtain rfl : pv' = (pqMin e0 rest0).pnode := by simpa using hpv'.symm
          exact ⟨List.mem_append_right _ (by simp), hsym⟩
    · show ∀ (x y : String) (w' : Int), x ∈ visited ++ [(pqMin e0 rest0).pnode] →
        y ∉ visited ++ [(pqMin e0 rest0).pnode] →
        (⟨x, y, w'⟩ : CEdge) ∈ symCl g.edges →
        (⟨w', y, some x⟩ : PEntry) ∈ (e0 :: rest0).erase (pqMin e0 rest0) ++
          (((nbrsOf g.edges (pqMin e0 rest0).pnode).filter
            fun pr => pr.1 ∉ visited ++ [(pqMin e0 rest0).pnode]).map
            fun pr => ⟨pr.2, pr.1, some (pqMin e0 rest0).pnode⟩)
      intro x y w' hx hy hedge
      have hxm : x = (pqMin e0 rest0).pnode := by
        rw [hvempty] at hx
        simpa using hx
      subst hxm
      apply List.mem_append_right
      rw [List.mem_map]
      refine ⟨(y, w'), ?_, rfl⟩
      rw [List.mem_filter]
      exact ⟨nbrsOf_complete hedge, by simpa using hy⟩
    · show ∀ x ∈ visited ++ [(pqMin e0 rest0).pnode], conn (symCl g.edges) start x
      intro x hx
      rw [hvempty] at hx
      simp only [List.nil_append, List.mem_singleton] at hx
      rw [hx, hpstart]
      exact conn_rfl
    · right
      show start ∈ visited ++ [(pqMin e0 rest0).pnode]
      rw [hpstart]
      exact List.mem_append_right _ (by simp)
  | case4 visited accN accE total e0 rest0 hv m pq' hni visited' accN' pushes pv hprev ih =>
    intro hInv
    obtain ⟨h1, h2, h3, h4, h5, h6, h7, h8, h9, h10, h11, h12, h13, h14, h15⟩ := hInv
    have hmpq : pqMin e0 rest0 ∈ e0 :: rest0 := pqMin_mem e0 rest0
    obtain ⟨hpvvis, hedgeE⟩ := (h11 _ hmpq).2.2 pv hprev
    have hcV : (pqMin e0 rest0).pnode ∈ g.nodes := (h11 _ hmpq).1
    have hstart_vis : start ∈ visited := by
      rcases h15 with ⟨hve, -⟩ | h
      · rw [hve] at hpvvis
        exact absurd hpvvis (by simp)
      · exact h
    have hnconn : ¬ conn accE.toFinset pv (pqMin e0 rest0).pnode :=
      fun h => hni (conn_stay (fun f hf => h4 f (List.mem_toFinset.1 hf)) h hpvvis)
    have he'notin : (⟨pv, (pqMin e0 rest0).pnode, (pqMin e0 rest0).pw⟩ : CEdge) ∉ accE :=
      fun h => hni (h4 ⟨pv, (pqMin e0 rest0).pnode, (pqMin e0 rest0).pw⟩ h).2
    have haccF : (accE ++ [(⟨pv, (pqMin e0 rest0).pnode, (pqMin e0 rest0).pw⟩ : CEdge)]).toFinset =
        insert (⟨pv, (pqMin e0 rest0).pnode, (pqMin e0 rest0).pw⟩ : CEdge) accE.toFinset :=
      toFinset_append_singleton _ _
    rw [primLoop_commit_some g e0 rest0 visited accN accE total pv hv hni hprev]
    apply ih
    show InvP g start
      ((e0 :: rest0).erase (pqMin e0 rest0) ++
        (((nbrsOf g.edges (pqMin e0 rest0).pnode).filter
          fun pr => pr.1 ∉ visited ++ [(pqMin e0 rest0).pnode]).map
          fun pr => ⟨pr.2, pr.1, some (pqMin e0 rest0).pnode⟩))
      (visited ++ [(pqMin e0 rest0).pnode])
      (accN ++ [((pqMin e0 rest0).pnode, bpos g (pqMin e0 rest0).pnode)])
      (accE ++ [(⟨pv, (pqMin e0 rest0).pnode, (pqMin e0 rest0).pw⟩ : CEdge)])
      (total + (pqMin e0 rest0).pw)
    refine ⟨?_, ?_, ?_, ?_, ?_, ?_, ?_, ?_, ?_, ?_, ?_, ?_, ?_, ?_, ?_⟩
    · exact nodup_append_singleton h1 hni
    · intro x hx
      rcases List.mem_append.1 hx with h | h
      · exact h2 x h
      · rw [List.mem_singleton] at h
        rw [h]
        exact hcV
    · rw [h3, List.map_append]
      rfl
    · intro f hf
      rcases List.mem_append.1 hf with h | h
      · exact ⟨List.mem_append_left _ (h4 f h).1, List.mem_append_left _ (h4 f h).2⟩
      · rw [List.mem_singleton] at h
        rw [h]
        exact ⟨List.mem_append_left _ hpvvis, List.mem_append_right _ (by simp)⟩
    · rw [haccF]
      exact Finset.insert_subset hedgeE h5
    · exact nodup_append_singleton h6 he'notin
    · exact incAcyclicFrom_append h7 (by simpa using hnconn)
    · rw [haccF]
      exact acyclic_insert h8 hnconn
    · rw [haccF, weightF, Finset.sum_insert (fun h => he'notin (List.mem_toFinset.1 h)), h9]
      have hew : (⟨pv, (pqMin e0 rest0).pnode, (pqMin e0 rest0).pw⟩ : CEdge).w =
          (pqMin e0 rest0).pw := rfl
      rw [hew, weightF]
      omega
    · intro x hx y hy
      have hpc : conn (insert (⟨pv, (pqMin e0 rest0).pnode, (pqMin e0 rest0).pw⟩ : CEdge)
          accE.toFinset) pv (pqMin e0 rest0).pnode :=
        conn_single (Finset.mem_insert_self _ _)
      have hsub2 : accE.toFinset ⊆ insert
          (⟨pv, (pqMin e0 rest0).pnode, (pqMin e0 rest0).pw⟩ : CEdge) accE.toFinset :=
        Finset.subset_insert _ _
      rw [haccF]
      rcases List.mem_append.1 hx with hxo | hxc <;> rcases List.mem_append.1 hy with hyo | hyc
      · exact conn_mono hsub2 (h10 x hxo y hyo)
      · rw [List.mem_singleton] at hyc
        rw [hyc]
        exact conn_trans (conn_mono hsub2 (h10 x hxo pv hpvvis)) hpc
      · rw [List.mem_singleton] at hxc
        rw [hxc]
        exact conn_trans (conn_symm hpc) (conn_mono hsub2 (h10 pv hpvvis y hyo))
      · rw [List.mem_singleton] at hxc hyc
        rw [hxc, hyc]
        exact conn_rfl
    · intro ent hent
      rcases List.mem_append.1 hent with h | h
      · have hold := h11 ent (List.mem_of_mem_erase h)
        refine ⟨hold.1, hold.2.1, ?_⟩
        intro pv' hpv'
        obtain ⟨hb1, hb2⟩ := hold.2.2 pv' hpv'
        exact ⟨List.mem_append_left _ hb1, hb2⟩
      · rw [List.mem_map] at h
        obtain ⟨pr, hpr, rfl⟩ := h
        rw [List.mem_filter] at hpr
        have hsym : (⟨(pqMin e0 rest0).pnode, pr.1, pr.2⟩ : CEdge) ∈ symCl g.edges :=
          nbrs_to_symCl (by simpa using hpr.1)
        refine ⟨(symCl_ends hwf hsym).2, ?_, ?_⟩
        · intro hnone
          simp at hnone
        · intro pv' hpv'
          obtain rfl : pv' = (pqMin e0 rest0).pnode := by simpa using hpv'.symm
          exact ⟨List.mem_append_right _ (by simp), hsym⟩
    · intro x y w' hx hy hedge
      have hynv : y ∉ visited := fun h => hy (List.mem_append_left _ h)
      have hync : y ≠ (pqMin e0 rest0).pnode := fun h => hy (by rw [h]; simp)
      rcases List.mem_append.1 hx with hxo | hxc
      · have hentry := h12 x y w' hxo hynv hedge
        have hne : (⟨w', y, some x⟩ : PEntry) ≠ pqMin e0 rest0 := by
          intro he
          apply hync
          rw [← he]
        exact List.mem_append_left _ ((List.mem_erase_of_ne hne).2 hentry)
      · rw [List.mem_singleton] at hxc
        subst hxc
        apply List.mem_append_right
        rw [List.mem_map]
        refine ⟨(y, w'), ?_, rfl⟩
        rw [List.mem_filter]
        exact ⟨nbrsOf_complete hedge, by simpa using hy⟩
    · obtain ⟨T, hTg, hTm, hsubT⟩ := h13
      have hwmin : ∀ f ∈ symCl g.edges,
          ((f.u ∈ visited ∧ f.v ∉ visited) ∨ (f.v ∈ visited ∧ f.u ∉ visited)) →
          (⟨pv, (pqMin e0 rest0).pnode, (pqMin e0 rest0).pw⟩ : CEdge).w ≤ f.w := by
        intro f hf hcross
        rcases hcross with ⟨hcu, hcv⟩ | ⟨hcu, hcv⟩
        · have hfeta : (⟨f.u, f.v, f.w⟩ : CEdge) = f := rfl
          have hentry := h12 f.u f.v f.w hcu hcv (hfeta ▸ hf)
          exact pqMin_le e0 rest0 _ hentry
        · have hfeta : (⟨f.v, f.u, f.w⟩ : CEdge) = flipE f := rfl
          have hentry := h12 f.v f.u f.w hcu hcv (hfeta ▸ symCl_flip_closed hf)
          exact pqMin_le e0 rest0 _ hentry
      obtain ⟨T', hT'E, hT'ac, hT'sp, hT'cont, hT'w⟩ :=
        exchange_lemma (C := fun z => z ∈ visited)
          hTg.1 hTg.2.1 hTg.2.2 hsubT hedgeE hpvvis hni
          (fun gE hgE => ⟨fun _ => (h4 gE (List.mem_toFinset.1 hgE)).2,
            fun _ => (h4 gE (List.mem_toFinset.1 hgE)).1⟩)
          (fun pc hpc => h10 pv hpvvis pc hpc)
          hwmin
      refine ⟨T', ⟨hT'E, hT'ac, hT'sp⟩, fun S hS => le_trans hT'w (hTm S hS), ?_⟩
      rw [haccF]
      exact hT'cont
    · intro x hx
      rcases List.mem_append.1 hx with h | h
      · exact h14 x h
      · rw [List.mem_singleton] at h
        rw [h]
        exact (h14 pv hpvvis).tail ⟨_, hedgeE, Or.inl ⟨rfl, rfl⟩⟩
    · right
      exact List.mem_append_left _ hstart_vis


/-- Facts about `prim_mst` on a well-formed nonempty graph: the result's
nodes are exactly the connected component of the first-inserted node, and its
edges are a minimum spanning tree of that component. -/
theorem prim_core {g : CampusNetwork} (hwf : Wf g) {start : String}
    {tl : List String} (hnodes : g.nodes = start :: tl) :
    ∃ visited' : List String,
      (g.prim_mst).2.rnodes = visited'.map (fun n => (n, bpos g n)) ∧
      visited'.Nodup ∧
      (∀ x, x ∈ visited' ↔ conn (symCl g.edges) start x) ∧
      (g.prim_mst).2.redges.toFinset ⊆ symCl g.edges ∧
      (g.prim_mst).2.redges.Nodup ∧
      IncAcyclic (g.prim_mst).2.redges ∧
      Acyclic (g.prim_mst).2.redges.toFinset ∧
      (∀ f ∈ (g.prim_mst).2.redges, f.u ∈ visited' ∧ f.v ∈ visited') ∧
      (∀ x ∈ visited', ∀ y ∈ visited', conn (g.prim_mst).2.redges.toFinset x y) ∧
      (∃ T, Good (symCl g.edges) T ∧
        (∀ S, Good (symCl g.edges) S → weightF T ≤ weightF S) ∧
        (g.prim_mst).2.redges.toFinset ⊆ T) ∧
      (g.prim_mst).2.total = weightF (g.prim_mst).2.redges.toFinset := by
  have hInv0 : InvP g start [⟨0, start, none⟩] [] [] [] 0 := by
    refine ⟨List.nodup_nil, ?_, rfl, ?_, ?_, List.nodup_nil, trivial, ?_, ?_, ?_,
      ?_, ?_, ?_, ?_, Or.inl ⟨rfl, rfl, rfl, rfl, rfl⟩⟩
    · intro x hx
      simp at hx
    · intro f hf
      simp at hf
    · simp
    · intro e he
      simp at he
    · simp [weightF]
    · intro x hx
      simp at hx
    · intro ent hent
      rw [List.mem_singleton] at hent
      subst hent
      refine ⟨by rw [hnodes]; exact List.mem_cons_self _ _, ?_, ?_⟩
      · intro _
        exact ⟨rfl, rfl⟩
      · intro pv hpv
        simp at hpv
    · intro x y w' hx hy hedge
      simp at hx
    · obtain ⟨T, hTg, hTm⟩ := exists_min_good (exists_good (symCl g.edges))
      exact ⟨T, hTg, hTm, by simp⟩
    · intro x hx
      simp at hx
  obtain ⟨visited', hc1, hc2, hc3, hc4, hc5, hc6, hc7, hc8, hc9, hc10, hc11⟩ :=
    primLoop_spec hwf hnodes [⟨0, start, none⟩] [] [] [] 0 hInv0
  have hprim : g.prim_mst =
      ({ g with mst := some ⟨(primLoop g [⟨0, start, none⟩] [] [] [] 0).1,
          (primLoop g [⟨0, start, none⟩] [] [] [] 0).2.1⟩ },
        ⟨(primLoop g [⟨0, start, none⟩] [] [] [] 0).1,
          (primLoop g [⟨0, start, none⟩] [] [] [] 0).2.1⟩) := by
    rw [CampusNetwork.prim_mst, hnodes]
  refine ⟨visited', ?_, hc2, hc3, ?_, ?_, ?_, ?_, ?_, ?_, ?_, ?_⟩
  · rw [hprim]
    exact hc1
  · rw [hprim]
    exact hc4
  · rw [hprim]
    exact hc5
  · rw [hprim]
    exact hc6
  · rw [hprim]
    exact hc7
  · rw [hprim]
    exact hc9
  · rw [hprim]
    exact hc10
  · rw [hprim]
    exact hc11
  · rw [hprim]
    show ((primLoop g [⟨0, start, none⟩] [] [] [] 0).2.1.map (fun e => e.w)).sum = _
    exact (List.sum_toFinset (fun e => e.w) hc5).symm

/-- Both algorithms on a graph with no nodes. -/
theorem mst_empty {g : CampusNetwork} (hnil : g.nodes = []) :
    (g.kruskal_mst).2 = ⟨[], []⟩ ∧ (g.prim_mst).2 = ⟨[], []⟩ ∧
    (g.kruskal_mst).2.total = 0 ∧ (g.prim_mst).2.total = 0 ∧
    (g.prim_mst).1 = g ∧ (g.kruskal_mst).1 = { g with mst := some ⟨[], []⟩ } := by
  have hk : g.kruskal_mst = ({ g with mst := some ⟨[], []⟩ }, ⟨[], []⟩) := by
    rw [CampusNetwork.kruskal_mst]
    rw [nxEdges, hnil]
    rfl
  have hp : g.prim_mst = (g, ⟨[], []⟩) := by
    rw [CampusNetwork.prim_mst, hnil]
  rw [hk, hp]
  exact ⟨rfl, rfl, rfl, rfl, rfl, rfl⟩

/-! ## Construction invariants: `add_building` / `add_connection` preserve `Wf` -/

theorem addNodeL_mem {ns : List String} {n x : String} :
    x ∈ addNodeL ns n ↔ x ∈ ns ∨ x = n := by
  rw [addNodeL]
  split_ifs with h
  · constructor
    · exact Or.inl
    · rintro (hx | rfl)
      · exact hx
      · exact h
  · simp [List.mem_append]

theorem addNodeL_nodup {ns : List String} (hnd : ns.Nodup) (n : String) :
    (addNodeL ns n).Nodup := by
  rw [addNodeL]
  split_ifs with h
  · exact hnd
  · rw [List.nodup_append]
    refine ⟨hnd, List.nodup_singleton n, ?_⟩
    intro a ha hb
    rw [List.mem_singleton] at hb
    subst hb
    exact h ha

theorem setA_keys : ∀ (b : List (String × Pos)) (k : String) (v : Pos),
    (setA b k v).map Prod.fst = addNodeL (b.map Prod.fst) k := by
  intro b k v
  induction b with
  | nil => rfl
  | cons hd rest ih =>
    obtain ⟨k', v'⟩ := hd
    rw [setA]
    split_ifs with h
    · subst h
      rw [List.map_cons, List.map_cons, addNodeL, if_pos (List.mem_cons_self _ _)]
    · rw [List.map_cons, List.map_cons, ih]
      by_cases hmem : k ∈ rest.map Prod.fst
      · rw [addNodeL, if_pos hmem, addNodeL,
          if_pos (List.mem_cons.2 (Or.inr hmem))]
      · rw [addNodeL, if_neg hmem, addNodeL, if_neg ?_, List.cons_append]
        intro hc
        rcases List.mem_cons.1 hc with hc | hc
        · exact h hc.symm
        · exact hmem hc

theorem lookup_isSome_of_mem {l : List (String × Pos)} {k : String}
    (h : k ∈ l.map Prod.fst) : (l.lookup k).isSome := by
  induction l with
  | nil => simp at h
  | cons hd tl ih =>
    obtain ⟨k', v'⟩ := hd
    by_cases hk : k = k'
    · subst hk
      simp [List.lookup]
    · rw [List.map_cons] at h
      rcases List.mem_cons.1 h with hc | hc
      · exact absurd hc hk
      · have hbeq : (k == k') = false := beq_eq_false_iff_ne.2 hk
        show (List.lookup k ((k', v') :: tl)).isSome
        simp only [List.lookup, hbeq]
        exact ih hc

theorem updateEdge_ends {Q : String → Prop} :
    ∀ {es : List CEdge} {u v : String} {w : Int},
      (∀ e ∈ es, Q e.u ∧ Q e.v) → Q u → Q v →
      ∀ f ∈ updateEdge es u v w, Q f.u ∧ Q f.v := by
  intro es
  induction es with
  | nil =>
    intro u v w _ hu hv f hf
    rw [updateEdge, List.mem_singleton] at hf
    subst hf
    exact ⟨hu, hv⟩
  | cons e rest ih =>
    intro u v w hes hu hv f hf
    rw [updateEdge] at hf
    split_ifs at hf with h
    · rcases List.mem_cons.1 hf with rfl | hfr
      · exact hes e (List.mem_cons_self _ _)
      · exact hes f (List.mem_cons.2 (Or.inr hfr))
    · rcases List.mem_cons.1 hf with rfl | hfr
      · exact hes f (List.mem_cons_self _ _)
      · exact ih (fun g hg => hes g (List.mem_cons.2 (Or.inr hg))) hu hv f hfr

theorem updateEdge_mem : ∀ {es : List CEdge} {u v : String} {w : Int},
    ∀ f ∈ updateEdge es u v w,
      f ∈ es ∨ ((f.u = u ∧ f.v = v) ∨ (f.u = v ∧ f.v = u)) := by
  intro es
  induction es with
  | nil =>
    intro u v w f hf
    rw [updateEdge, List.mem_singleton] at hf
    subst hf
    exact Or.inr (Or.inl ⟨rfl, rfl⟩)
  | cons e rest ih =>
    intro u v w f hf
    rw [updateEdge] at hf
    split_ifs at hf with h
    · rcases List.mem_cons.1 hf with rfl | hfr
      · exact Or.inr h
      · exact Or.inl (List.mem_cons.2 (Or.inr hfr))
    · rcases List.mem_cons.1 hf with rfl | hfr
      · exact Or.inl (List.mem_cons_self _ _)
      · rcases ih f hfr with hc | hc
        · exact Or.inl (List.mem_cons.2 (Or.inr hc))
        · exact Or.inr hc

theorem updateEdge_pairwise :
    ∀ {es : List CEdge} {u v : String} {w : Int},
      es.Pairwise (fun e f => ¬ ((e.u = f.u ∧ e.v = f.v) ∨ (e.u = f.v ∧ e.v = f.u))) →
      (updateEdge es u v w).Pairwise
        (fun e f => ¬ ((e.u = f.u ∧ e.v = f.v) ∨ (e.u = f.v ∧ e.v = f.u))) := by
  intro es
  induction es with
  | nil =>
    intro u v w _
    exact List.pairwise_singleton _ _
  | cons e rest ih =>
    intro u v w hpw
    obtain ⟨hhead, htail⟩ := List.pairwise_cons.1 hpw
    rw [updateEdge]
    split_ifs with h
    · exact List.pairwise_cons.2 ⟨fun f hf => hhead f hf, htail⟩
    · refine List.pairwise_cons.2 ⟨?_, ih htail⟩
      intro f hf
      rcases updateEdge_mem f hf with hfr | hco
      · exact hhead f hfr
      · intro hd
        apply h
        rcases hco with ⟨h1, h2⟩ | ⟨h1, h2⟩
        · rw [h1, h2] at hd
          exact hd
        · rw [h1, h2] at hd
          rcases hd with ⟨ha, hb⟩ | ⟨ha, hb⟩
          · exact Or.inr ⟨ha, hb⟩
          · exact Or.inl ⟨ha, hb⟩

theorem wf_add_building {g : CampusNetwork} (hwf : Wf g) (name : String)
    (x y : Int) : Wf (g.add_building name x y) := by
  obtain ⟨hnd, hends, hsimple, hbk, hbn⟩ := hwf
  refine ⟨addNodeL_nodup hnd name, ?_, hsimple, ?_, ?_⟩
  · intro e he
    obtain ⟨h1, h2⟩ := hends e he
    exact ⟨addNodeL_mem.2 (Or.inl h1), addNodeL_mem.2 (Or.inl h2)⟩
  · show ((setA g.buildings name (x, y)).map Prod.fst).Nodup
    rw [setA_keys]
    exact addNodeL_nodup hbk name
  · intro n hn
    show n ∈ (setA g.buildings name (x, y)).map Prod.fst
    rw [setA_keys]
    rcases addNodeL_mem.1 hn with hc | rfl
    · exact addNodeL_mem.2 (Or.inl (hbn n hc))
    · exact addNodeL_mem.2 (Or.inr rfl)

theorem wf_add_connection {g : CampusNetwork} (hwf : Wf g) (b1 b2 : String)
    (c : Int) : Wf (g.add_connection b1 b2 c) := by
  rw [CampusNetwork.add_connection]
  split_ifs with h
  · obtain ⟨hnd, hends, hsimple, hbk, hbn⟩ := hwf
    have hmem : ∀ x, x ∈ addNodeL (addNodeL g.nodes b1) b2 ↔
        (x ∈ g.nodes ∨ x = b1) ∨ x = b2 := by
      intro x
      rw [addNodeL_mem, addNodeL_mem]
    refine ⟨addNodeL_nodup (addNodeL_nodup hnd b1) b2, ?_, ?_, hbk, ?_⟩
    · intro e he
      refine updateEdge_ends (fun f hf => ?_) ((hmem b1).2 (Or.inl (Or.inr rfl)))
        ((hmem b2).2 (Or.inr rfl)) e he
      obtain ⟨h1, h2⟩ := hends f hf
      exact ⟨(hmem f.u).2 (Or.inl (Or.inl h1)), (hmem f.v).2 (Or.inl (Or.inl h2))⟩
    · exact updateEdge_pairwise hsimple
    · intro n hn
      rcases (hmem n).1 hn with (hc | rfl) | rfl
      · exact hbn n hc
      · exact h.1
      · exact h.2
  · exact hwf

theorem foldl_ops_wf : ∀ (ops : List NetOp) (g : CampusNetwork), Wf g →
    Wf (ops.foldl
      (fun g op =>
        match op with
        | .addB name x y => g.add_building name x y
        | .addC b1 b2 c => g.add_connection b1 b2 c) g) := by
  intro ops
  induction ops with
  | nil => exact fun g hg => hg
  | cons op rest ih =>
    intro g hg
    rw [List.foldl_cons]
    apply ih
    cases op with
    | addB name x y => exact wf_add_building hg name x y
    | addC b1 b2 c => exact wf_add_connection hg b1 b2 c

/-- Every state reachable through the construction API is well-formed. -/
theorem applyOps_wf (ops : List NetOp) : Wf (applyOps ops) :=
  foldl_ops_wf ops CampusNetwork.init (by decide)

/-! ## The claims -/

/-- C4: contrary to the spec, `add_connection` raises no error at all: with
an unregistered endpoint it silently leaves the network unchanged (the edge
is dropped by the guard check), and with both endpoints registered it stores
the edge whatever its weight, negative weights included — there is no weight
validation. This is the amended (actual) registration behaviour. -/
theorem claim_C4 :
    (∀ (g : CampusNetwork) (b1 b2 : String) (w : Int),
      (b1 ∉ bkeys g ∨ b2 ∉ bkeys g) → g.add_connection b1 b2 w = g) ∧
    (∀ (g : CampusNetwork) (b1 b2 : String) (w : Int),
      b1 ∈ bkeys g → b2 ∈ bkeys g →
      (g.add_connection b1 b2 w).nodes = addNodeL (addNodeL g.nodes b1) b2 ∧
      (g.add_connection b1 b2 w).edges = updateEdge g.edges b1 b2 w ∧
      (g.add_connection b1 b2 w).buildings = g.buildings) := by
  constructor
  · intro g b1 b2 w h
    rw [CampusNetwork.add_connection, if_neg]
    rintro ⟨h1, h2⟩
    rcases h with h | h
    · exact h h1
    · exact h h2
  · intro g b1 b2 w h1 h2
    rw [CampusNetwork.add_connection, if_pos ⟨h1, h2⟩]
    exact ⟨rfl, rfl, rfl⟩

theorem claim_C4_witness :
    gTri.add_connection "A" "Z" 5 = gTri ∧
    (gTri.add_connection "A" "B" (-7)).edges = updateEdge gTri.edges "A" "B" (-7) :=
  ⟨claim_C4.1 gTri "A" "Z" 5 (Or.inr (by decide)),
   (claim_C4.2 gTri "A" "B" (-7) (by decide) (by decide)).2.1⟩

/-- C4 counterexample: an edge naming the unregistered node `"Z"` is silently
dropped — the network is returned unchanged, no `UnknownNodeError` (no error
of any kind) exists in the code — and an edge with negative weight `-7` is
accepted and stored, no `InvalidWeightError` is raised. -/
theorem claim_C4_cex :
    gTri.add_connection "A" "Z" 5 = gTri ∧
    (⟨"A", "B", -7⟩ : CEdge) ∈ (gTri.add_connection "A" "B" (-7)).edges := by
  decide

/-- C5: the input graph data (node list, edge list with weights, buildings)
is indeed unchanged by both algorithms, and each call computes its result
afresh from those fields; but `kruskal_mst` (and `prim_mst` on a nonempty
graph) also writes the result into the object's `mst` field — see the
counterexample for the shared mutable state this creates. -/
theorem claim_C5 (g : CampusNetwork) :
    (g.kruskal_mst).1.nodes = g.nodes ∧
    (g.kruskal_mst).1.edges = g.edges ∧
    (g.kruskal_mst).1.buildings = g.buildings ∧
    (g.prim_mst).1.nodes = g.nodes ∧
    (g.prim_mst).1.edges = g.edges ∧
    (g.prim_mst).1.buildings = g.buildings ∧
    (g.kruskal_mst).1.mst = some (g.kruskal_mst).2 ∧
    (g.nodes = [] → (g.prim_mst).1.mst = g.mst) ∧
    (∀ s t, g.nodes = s :: t → (g.prim_mst).1.mst = some (g.prim_mst).2) := by
  have hprim : (g.prim_mst).1.nodes = g.nodes ∧ (g.prim_mst).1.edges = g.edges ∧
      (g.prim_mst).1.buildings = g.buildings ∧
      (g.nodes = [] → (g.prim_mst).1.mst = g.mst) ∧
      (∀ s t, g.nodes = s :: t → (g.prim_mst).1.mst = some (g.prim_mst).2) := by
    cases hn : g.nodes with
    | nil =>
      have hp : g.prim_mst = (g, ⟨[], []⟩) := by
        rw [CampusNetwork.prim_mst, hn]
      rw [hp]
      exact ⟨hn, rfl, rfl, fun _ => rfl, fun s t hst => by cases hst⟩
    | cons s t =>
      have hp : g.prim_mst =
          ({ g with mst := some ⟨(primLoop g [⟨0, s, none⟩] [] [] [] 0).1,
              (primLoop g [⟨0, s, none⟩] [] [] [] 0).2.1⟩ },
            ⟨(primLoop g [⟨0, s, none⟩] [] [] [] 0).1,
              (primLoop g [⟨0, s, none⟩] [] [] [] 0).2.1⟩) := by
        rw [CampusNetwork.prim_mst, hn]
      rw [hp]
      refine ⟨hn, rfl, rfl, fun hnil => ?_, fun _ _ _ => rfl⟩
      cases hnil
  exact ⟨rfl, rfl, rfl, hprim.1, hprim.2.1, hprim.2.2.1, rfl, hprim.2.2.2.1,
    hprim.2.2.2.2⟩

theorem claim_C5_witness :
    (gTri.kruskal_mst).1.edges = gTri.edges ∧
    (gTri.prim_mst).1.mst = some (gTri.prim_mst).2 :=
  ⟨(claim_C5 gTri).2.1,
   (claim_C5 gTri).2.2.2.2.2.2.2.2 "A" ["B", "C"] (by decide)⟩

/-- C5 counterexample to "no shared mutable state persists between calls":
the network object the algorithms hand back carries the freshly computed
result in its `mst` field (`self.mst = mst` in the source), so the object's
state after a call differs from its state before, and a later call (or
`visualize_network`) observes the earlier call's result through it. -/
theorem claim_C5_cex :
    gTri.mst = none ∧ (gTri.kruskal_mst).1 ≠ gTri := by
  decide

/-- C7: on the graph with zero nodes both algorithms return the well-formed
empty result — no nodes, no edges, total weight 0 — and are total functions
(no failure path exists in the model). -/
theorem claim_C7 {g : CampusNetwork} (hnil : g.nodes = []) :
    (g.kruskal_mst).2 = ⟨[], []⟩ ∧ (g.prim_mst).2 = ⟨[], []⟩ ∧
    (g.kruskal_mst).2.total = 0 ∧ (g.prim_mst).2.total = 0 := by
  obtain ⟨h1, h2, h3, h4, -, -⟩ := mst_empty hnil
  exact ⟨h1, h2, h3, h4⟩

theorem claim_C7_witness :
    (CampusNetwork.init.kruskal_mst).2 = ⟨[], []⟩ ∧
    (CampusNetwork.init.prim_mst).2 = ⟨[], []⟩ ∧
    (CampusNetwork.init.kruskal_mst).2.total = 0 ∧
    (CampusNetwork.init.prim_mst).2.total = 0 :=
  claim_C7 rfl

/-- C10: after any sequence of `add_building`/`add_connection` calls, every
node of the graph is a key of the `buildings` dict (`add_building` writes
both; `add_connection`'s guard only ever adds edges — and hence nodes —
between registered buildings), so the `self.buildings[node]` lookups inside
`kruskal_mst` and `prim_mst` always find their key. -/
theorem claim_C10 (ops : List NetOp) :
    (∀ n ∈ (applyOps ops).nodes, n ∈ bkeys (applyOps ops)) ∧
    (∀ n ∈ (applyOps ops).nodes, ((applyOps ops).buildings.lookup n).isSome) := by
  have hwf := applyOps_wf ops
  refine ⟨hwf.2.2.2.2, fun n hn => ?_⟩
  exact lookup_isSome_of_mem (hwf.2.2.2.2 n hn)

theorem claim_C10_witness :
    ((applyOps [.addB "A" 0 0, .addC "A" "A" 3]).buildings.lookup "A").isSome :=
  (claim_C10 [.addB "A" 0 0, .addC "A" "A" 3]).2 "A" (by decide)

/-- C6: the edges either algorithm selects form a forest: replaying them
through a fresh union-find (union the endpoints of each selected edge in
turn), every union returns true. -/
theorem claim_C6 {g : CampusNetwork} (hwf : Wf g) :
    replayOk (g.kruskal_mst).2.redges = true ∧
    replayOk (g.prim_mst).2.redges = true := by
  constructor
  · exact replayOk_of_incAcyclic (kruskal_core hwf).2.2.2.1
  · cases hn : g.nodes with
    | nil =>
      have h := (mst_empty hn).2.1
      rw [h]
      rfl
    | cons s t =>
      obtain ⟨vis, -, -, -, -, -, hinc, -, -, -, -, -⟩ := prim_core hwf hn
      exact replayOk_of_incAcyclic hinc

theorem claim_C6_witness :
    replayOk (gTri.kruskal_mst).2.redges = true ∧
    replayOk (gTri.prim_mst).2.redges = true :=
  claim_C6 (by decide)

/-- C9: if following parent pointers from `n` reaches a root `r` in `k`
steps (the no-cycle hypothesis under which the recursive Python `find`
terminates), then with recursion depth at least `k` available, `find`
terminates and returns `r` — the canonical representative, unique for `n`'s
set and a fixed point of the map — and the returned map sends every node
visited on the way (the strict chain prefix) to `r`, leaving all other
parent pointers unchanged: path compression. -/
theorem claim_C9 {p : String → String} {n r : String} {k : Nat}
    (h : Chain p n r k) {fuel : Nat} (hfuel : k ≤ fuel) :
    (find fuel p n).1 = r ∧
    p r = r ∧
    (∀ r', HasRoot p n r' → r' = r) ∧
    (∀ j, j < k → (find fuel p n).2 (p^[j] n) = r) ∧
    (∀ m, (∀ j, j < k → m ≠ p^[j] n) → (find fuel p n).2 m = p m) := by
  have hs := find_spec h fuel hfuel
  refine ⟨hs.1, chain_root_fixed h, ?_, ?_, hs.2.2⟩
  · intro r' hr'
    exact hasRoot_unique hr' ⟨k, h⟩
  · intro j hj
    exact hs.2.1 _ ⟨j, hj, rfl⟩

/-- The two-link parent map `C ↦ B ↦ A` used to witness C9. -/
def pWit : String → String :=
  fun n => if n = "C" then "B" else if n = "B" then "A" else n

theorem claim_C9_witness :
    (find 2 pWit "C").1 = "A" ∧
    (find 2 pWit "C").2 "C" = "A" ∧
    (find 2 pWit "C").2 "B" = "A" ∧
    (find 2 pWit "C").2 "D" = "D" := by
  have hch : Chain pWit "C" "A" 2 :=
    Chain.step _ _ _ (by decide)
      (Chain.step _ _ _ (by decide) (Chain.refl _ (by decide)))
  have h := claim_C9 hch (le_refl 2)
  refine ⟨h.1, h.2.2.2.1 0 (by decide), h.2.2.2.1 1 (by decide),
    h.2.2.2.2 "D" ?_⟩
  intro j hj
  interval_cases j <;> decide

/-- C8: with both arguments registered (so the parent map is well-formed
over the node list and the fuel covers every chain), `union a b` returns
true exactly when `a` and `b` were in different sets; on true it merges
exactly those two sets (afterwards `x` and `y` are together iff they were
already, or one was with `a` and the other with `b`), and on false it
leaves the partition unchanged. -/
theorem claim_C8 {p : String → String} {V : List String}
    (hwf : WFP p V) (hnd : V.Nodup) {fuel : Nat} (hfuel : V.length ≤ fuel)
    {a b : String} (ha : a ∈ V) (hb : b ∈ V) :
    ((union fuel p a b).1 = true ↔ ¬ sameSet p a b) ∧
    WFP (union fuel p a b).2 V ∧
    ((union fuel p a b).1 = true → ∀ x y,
      (sameSet (union fuel p a b).2 x y ↔
        (sameSet p x y ∨ (sameSet p x a ∧ sameSet p b y) ∨
          (sameSet p x b ∧ sameSet p a y)))) ∧
    ((union fuel p a b).1 = false → ∀ x y,
      (sameSet (union fuel p a b).2 x y ↔ sameSet p x y)) := by
  obtain ⟨ra, rb, hra, hrb, hbool, hwf2, hroot⟩ := union_spec hwf hnd hfuel ha hb
  have hrootOf : ∀ x, ∃ rx, HasRoot p x rx := hwf.2.2
  have hsame_ab : sameSet p a b ↔ ra = rb := sameSet_iff_roots hra hrb
  refine ⟨by rw [hbool, hsame_ab], hwf2, ?_, ?_⟩
  · intro htrue x y
    have hne : ra ≠ rb := hbool.1 htrue
    obtain ⟨rx, hrx⟩ := hrootOf x
    obtain ⟨ry, hry⟩ := hrootOf y
    have hrx' := hroot x rx hrx
    have hry' := hroot y ry hry
    rw [sameSet_iff_roots hrx' hry', sameSet_iff_roots hrx hry,
      sameSet_iff_roots hrx hra, sameSet_iff_roots hrb hry,
      sameSet_iff_roots hrx hrb, sameSet_iff_roots hra hry]
    by_cases hx : rx = rb <;> by_cases hy : ry = rb
    · rw [if_pos ⟨hne, hx⟩, if_pos ⟨hne, hy⟩]
      exact ⟨fun _ => Or.inl (hx.trans hy.symm), fun _ => rfl⟩
    · rw [if_pos ⟨hne, hx⟩, if_neg (fun hc => hy hc.2)]
      constructor
      · intro h
        exact Or.inr (Or.inr ⟨hx, h⟩)
      · rintro (h | ⟨h1, h2⟩ | ⟨h1, h2⟩)
        · exact absurd (h.symm.trans hx) hy
        · exact absurd h2.symm hy
        · exact h2
    · rw [if_neg (fun hc => hx hc.2), if_pos ⟨hne, hy⟩]
      constructor
      · intro h
        exact Or.inr (Or.inl ⟨h, hy.symm⟩)
      · rintro (h | ⟨h1, h2⟩ | ⟨h1, h2⟩)
        · exact absurd (h.trans hy) hx
        · exact h1
        · exact absurd h1 hx
    · rw [if_neg (fun hc => hx hc.2), if_neg (fun hc => hy hc.2)]
      constructor
      · exact Or.inl
      · rintro (h | ⟨h1, h2⟩ | ⟨h1, h2⟩)
        · exact h
        · exact absurd h2.symm hy
        · exact absurd h1 hx
  · intro hfalse x y
    have heq : ra = rb := by
      by_contra hne
      rw [hbool.2 hne] at hfalse
      cases hfalse
    obtain ⟨rx, hrx⟩ := hrootOf x
    obtain ⟨ry, hry⟩ := hrootOf y
    have hrx' := hroot x rx hrx
    have hry' := hroot y ry hry
    rw [if_neg (fun hc => hc.1 heq)] at hrx' hry'
    rw [sameSet_iff_roots hrx' hry', sameSet_iff_roots hrx hry]

theorem claim_C8_witness :
    (union 2 (fun n => n) "A" "B").1 = true ∧
    (union 2 (fun n => n) "A" "A").1 = false := by
  have h1 := claim_C8 (p := fun n => n) (V := ["A", "B"]) (WFP_id _) (by decide)
    (a := "A") (b := "B") (le_refl 2) (by decide) (by decide)
  have h2 := claim_C8 (p := fun n => n) (V := ["A", "B"]) (WFP_id _) (by decide)
    (a := "A") (b := "A") (le_refl 2) (by decide) (by decide)
  constructor
  · refine h1.1.2 ?_
    rw [sameSet_id]
    decide
  · cases hu : (union 2 (fun n => n) "A" "A").1 with
    | false => rfl
    | true =>
      have := h1.1
      exact absurd (by rw [sameSet_id] : sameSet (fun n => n) "A" "A" ↔ "A" = "A")
        (fun hs => (h2.1.1 hu) (hs.2 rfl))

/-- C2: on any well-formed graph, `kruskal_mst`'s result lists every node of
the graph (with its coordinates), its selected edges are drawn from the
graph's edges, are acyclic, connect exactly what the graph connects (a
spanning forest of every component), have minimum total weight among all
spanning forests, and number `|V| - number of connected components`. -/
theorem claim_C2 {g : CampusNetwork} (hwf : Wf g) :
    (g.kruskal_mst).2.rnodes = g.nodes.map (fun n => (n, bpos g n)) ∧
    (g.kruskal_mst).2.redges.toFinset ⊆ symCl g.edges ∧
    Acyclic (g.kruskal_mst).2.redges.toFinset ∧
    (∀ x y, conn (g.kruskal_mst).2.redges.toFinset x y ↔ conn (symCl g.edges) x y) ∧
    (∀ S, Good (symCl g.edges) S → (g.kruskal_mst).2.total ≤ weightF S) ∧
    (g.kruskal_mst).2.redges.length = g.nodes.length - nComponents g := by
  obtain ⟨hkE, hkAc, hkNd, hkInc, hkSpan, hkMin, hkCount, hkTot⟩ := kruskal_core hwf
  refine ⟨rfl, hkE, hkAc, hkSpan, ?_, ?_⟩
  · intro S hS
    rw [hkTot]
    exact hkMin S hS
  · have h := hkCount (crep g) crep_classify
    rw [nComponents]
    omega

theorem claim_C2_witness :
    (gTri.kruskal_mst).2.redges.length = gTri.nodes.length - nComponents gTri :=
  (claim_C2 (by decide)).2.2.2.2.2

/-- C1: on a well-formed connected graph the two algorithms agree on the
total weight: Kruskal's result is a minimum spanning forest, Prim's result
is contained in some minimum spanning forest and (by connectivity) spans
everything, so both totals equal the minimum spanning-forest weight. -/
theorem claim_C1 {g : CampusNetwork} (hwf : Wf g) (hc : connectedB g = true) :
    (g.kruskal_mst).2.total = (g.prim_mst).2.total := by
  cases hn : g.nodes with
  | nil =>
    obtain ⟨-, -, h3, h4, -, -⟩ := mst_empty hn
    rw [h3, h4]
  | cons start tl =>
    obtain ⟨hkE, hkAc, hkNd, hkInc, hkSpan, hkMin, hkCount, hkTot⟩ := kruskal_core hwf
    obtain ⟨vis, hp1, hp2, hp3, hp4, hp5, hp6, hp7, hp8, hp9, hp10, hp11⟩ :=
      prim_core hwf hn
    have hstart : start ∈ g.nodes := by
      rw [hn]
      exact List.mem_cons_self _ _
    have hconnAll := connectedB_iff.1 hc
    have hallvis : ∀ x ∈ g.nodes, x ∈ vis := by
      intro x hx
      exact (hp3 x).2 (hconnAll start hstart x hx)
    have hPGood : Good (symCl g.edges) (g.prim_mst).2.redges.toFinset := by
      refine ⟨hp4, hp7, fun x y => ⟨fun h => conn_mono hp4 h, fun h => ?_⟩⟩
      refine conn_of_edges_conn (fun f hf => ?_) h
      obtain ⟨h1, h2⟩ := symCl_ends hwf hf
      exact hp9 f.u (hallvis f.u h1) f.v (hallvis f.v h2)
    have hKGood : Good (symCl g.edges) (g.kruskal_mst).2.redges.toFinset :=
      ⟨hkE, hkAc, hkSpan⟩
    obtain ⟨T, hTGood, hTMin, hPT⟩ := hp10
    have hPeqT : (g.prim_mst).2.redges.toFinset = T :=
      good_subset_eq hPGood hTGood.1 hTGood.2.1 hPT
    have hle1 : weightF (g.kruskal_mst).2.redges.toFinset ≤
        weightF (g.prim_mst).2.redges.toFinset := hkMin _ hPGood
    have hle2 : weightF (g.prim_mst).2.redges.toFinset ≤
        weightF (g.kruskal_mst).2.redges.toFinset := by
      rw [hPeqT]
      exact hTMin _ hKGood
    rw [hkTot, hp11]
    exact le_antisymm hle1 hle2

theorem claim_C1_witness :
    (gTri.kruskal_mst).2.total = (gTri.prim_mst).2.total :=
  claim_C1 (by decide) (by decide)

/-- Step-by-step evaluation of Prim's loop on the disconnected sample. -/
theorem prim_gDisc :
    (gDisc.prim_mst).2 = ⟨[("A", (0, 0)), ("B", (1, 0))], [⟨"A", "B", 1⟩]⟩ := by
  have hnodesD : gDisc.nodes = "A" :: ["B", "C", "D"] := by decide
  have hpm : gDisc.prim_mst =
      ({ gDisc with mst := some ⟨(primLoop gDisc [⟨0, "A", none⟩] [] [] [] 0).1,
          (primLoop gDisc [⟨0, "A", none⟩] [] [] [] 0).2.1⟩ },
        ⟨(primLoop gDisc [⟨0, "A", none⟩] [] [] [] 0).1,
          (primLoop gDisc [⟨0, "A", none⟩] [] [] [] 0).2.1⟩) := by
    rw [CampusNetwork.prim_mst, hnodesD]
    rfl
  have s1 : primLoop gDisc [⟨0, "A", none⟩] [] [] [] 0 =
      primLoop gDisc [⟨1, "B", some "A"⟩] ["A"] [("A", (0, 0))] [] 0 := by
    rw [primLoop_eq]
    rfl
  have s2 : primLoop gDisc [⟨1, "B", some "A"⟩] ["A"] [("A", (0, 0))] [] 0 =
      primLoop gDisc [] ["A", "B"] [("A", (0, 0)), ("B", (1, 0))]
        [⟨"A", "B", 1⟩] 1 := by
    rw [primLoop_eq]
    rfl
  have s3 : primLoop gDisc [] ["A", "B"] [("A", (0, 0)), ("B", (1, 0))]
      [⟨"A", "B", 1⟩] 1 =
      ([("A", (0, 0)), ("B", (1, 0))], [⟨"A", "B", 1⟩], 1) := by
    rw [primLoop_eq]
  rw [hpm, s1, s2, s3]

/-- C3: on a disconnected well-formed graph, Kruskal's result still lists
every node and is a minimum spanning forest of the whole graph, while Prim's
result contains exactly the nodes of the start node's connected component
(the first-inserted node) and only edges within it; on the concrete sample
with components `{A,B}` (edge A-B=1) and `{C,D}` (edge C-D=1) Kruskal keeps
both edges with total 2 while Prim, started at A, keeps only A-B with
total 1. -/
theorem claim_C3 {g : CampusNetwork} (hwf : Wf g) (hdisc : connectedB g = false) :
    ((∀ x ∈ g.nodes, (x, bpos g x) ∈ (g.kruskal_mst).2.rnodes) ∧
     Good (symCl g.edges) (g.kruskal_mst).2.redges.toFinset ∧
     (∀ S, Good (symCl g.edges) S → (g.kruskal_mst).2.total ≤ weightF S) ∧
     (∃ (start : String) (tl vis : List String), g.nodes = start :: tl ∧
       (g.prim_mst).2.rnodes = vis.map (fun n => (n, bpos g n)) ∧
       (∀ x, x ∈ vis ↔ conn (symCl g.edges) start x) ∧
       (∀ f ∈ (g.prim_mst).2.redges,
         conn (symCl g.edges) start f.u ∧ conn (symCl g.edges) start f.v))) ∧
    ((gDisc.kruskal_mst).2.redges = [⟨"A", "B", 1⟩, ⟨"C", "D", 1⟩] ∧
     (gDisc.kruskal_mst).2.total = 2 ∧
     (gDisc.prim_mst).2.rnodes = [("A", (0, 0)), ("B", (1, 0))] ∧
     (gDisc.prim_mst).2.redges = [⟨"A", "B", 1⟩] ∧
     (gDisc.prim_mst).2.total = 1) := by
  constructor
  · obtain ⟨hkE, hkAc, hkNd, hkInc, hkSpan, hkMin, hkCount, hkTot⟩ := kruskal_core hwf
    have hne : ∃ start tl, g.nodes = start :: tl := by
      cases hn : g.nodes with
      | nil =>
        exfalso
        have : connectedB g = true := by
          rw [connectedB, hn]
          rfl
        rw [this] at hdisc
        cases hdisc
      | cons s t => exact ⟨s, t, rfl⟩
    obtain ⟨start, tl, hn⟩ := hne
    obtain ⟨vis, hp1, hp2, hp3, hp4, hp5, hp6, hp7, hp8, hp9, hp10, hp11⟩ :=
      prim_core hwf hn
    refine ⟨?_, ⟨hkE, hkAc, hkSpan⟩, ?_, ⟨start, tl, vis, hn, hp1, hp3, ?_⟩⟩
    · intro x hx
      show (x, bpos g x) ∈ g.nodes.map (fun n => (n, bpos g n))
      exact List.mem_map.2 ⟨x, hx, rfl⟩
    · intro S hS
      rw [hkTot]
      exact hkMin S hS
    · intro f hf
      obtain ⟨h1, h2⟩ := hp8 f hf
      exact ⟨(hp3 f.u).1 h1, (hp3 f.v).1 h2⟩
  · refine ⟨by decide, by decide, ?_, ?_, ?_⟩
    · rw [prim_gDisc]
    · rw [prim_gDisc]
    · rw [prim_gDisc]
      rfl

theorem claim_C3_witness :
    (gDisc.kruskal_mst).2.total = 2 ∧ (gDisc.prim_mst).2.total = 1 := by
  have h := claim_C3 (g := gDisc) (by decide) (by decide)
  exact ⟨h.2.2.1, h.2.2.2.2.2⟩
